import Mathlib

/-!
Shallow embedding of the classification / pricing / variant-assembly core of
`src/index.js` (Centrano product-creation automation), together with proofs
about it.  Pure functions of the JavaScript source are translated into
executable Lean definitions: JavaScript numbers are modelled as exact
rationals, strings as `String`/`List Char`, and the handful of regular
expressions used by the source are modelled by hand-rolled matchers that
mirror the JS engine's ordered-alternation, greedy, backtracking semantics
on the relevant patterns.
-/

/-! ### Character-level text model -/

/-- Whitespace class of the JS `\s` / `split(/\s+/)` / `trim()` machinery
(space, tab, LF, CR, VT, FF; the exotic Unicode spaces never occur in the
data handled here). -/
def isWsChar (c : Char) : Bool :=
  c == ' ' || c == '\t' || c == '\n' || c == '\r' || c == '\x0b' || c == '\x0c'

/-- JS regex word-character class `\w` = `[A-Za-z0-9_]`, used for `\b`. -/
def isWordChar (c : Char) : Bool :=
  decide ('a' ≤ c ∧ c ≤ 'z') || decide ('A' ≤ c ∧ c ≤ 'Z') ||
    decide ('0' ≤ c ∧ c ≤ '9') || c == '_'

/-- Character class `[a-z0-9]` of `textIncludesWord`'s sanitizing replace. -/
def isLowerAlnum (c : Char) : Bool :=
  decide ('a' ≤ c ∧ c ≤ 'z') || decide ('0' ≤ c ∧ c ≤ '9')

/-- Decimal digit class `\d`. -/
def isDigitChar (c : Char) : Bool :=
  decide ('0' ≤ c ∧ c ≤ '9')

/-- Accented letter → base letter, modelling `normalize("NFD")` followed by
removal of the combining marks U+0300–U+036F for the Latin/Romanian
repertoire this catalog works with.  Characters outside the table (plain
ASCII in particular) decompose to themselves. -/
def deaccentPairs : List (Char × Char) :=
  [('ă','a'), ('â','a'), ('î','i'), ('ș','s'), ('ț','t'), ('ş','s'), ('ţ','t'),
   ('á','a'), ('à','a'), ('ä','a'), ('ã','a'), ('é','e'), ('è','e'), ('ê','e'),
   ('ë','e'), ('í','i'), ('ì','i'), ('ï','i'), ('ó','o'), ('ò','o'), ('ö','o'),
   ('ô','o'), ('õ','o'), ('ú','u'), ('ù','u'), ('ü','u'), ('û','u'), ('ç','c'),
   ('ñ','n'), ('ý','y'),
   ('Ă','A'), ('Â','A'), ('Î','I'), ('Ș','S'), ('Ț','T'), ('Ş','S'), ('Ţ','T'),
   ('Á','A'), ('À','A'), ('Ä','A'), ('Ã','A'), ('É','E'), ('È','E'), ('Ê','E'),
   ('Ë','E'), ('Í','I'), ('Ì','I'), ('Ï','I'), ('Ó','O'), ('Ò','O'), ('Ö','O'),
   ('Ô','O'), ('Õ','O'), ('Ú','U'), ('Ù','U'), ('Ü','U'), ('Û','U'), ('Ç','C'),
   ('Ñ','N'), ('Ý','Y')]

/-- NFD-decompose one character and drop its combining marks. -/
def deaccent (c : Char) : Char :=
  ((deaccentPairs.find? (fun p => p.1 == c)).map Prod.snd).getD c

/-- The source's `stripDiacritics`: NFD + strip combining marks, casing kept. -/
def stripDiacritics (s : String) : String :=
  String.mk (s.data.map deaccent)

/-- Per-character action of the source's `norm`: NFD-fold, then lowercase. -/
def normChar (c : Char) : Char := (deaccent c).toLower

/-- The source's `norm` applied to a definitely-present string:
`normalize("NFD").replace(/[̀-ͯ]/g, "").toLowerCase()`.
Note: no whitespace handling of any kind. -/
def norm0 (s : String) : String :=
  String.mk (s.data.map (fun c => (deaccent c).toLower))

/-- The source's `norm`, including its `(s || "")` guard: an absent input
behaves like the empty string. -/
def norm : Option String → String
  | none => ""
  | some s => norm0 s

mutual

/-- Scanner for `replace(/[^a-z0-9]+/g, " ")`: alphanumeric characters are
kept, each maximal run of other characters becomes a single space.
This function handles the position right after an alphanumeric character
(or the very start). -/
def alnumSpaces : List Char → List Char
  | [] => []
  | c :: r => if isLowerAlnum c then c :: alnumSpaces r else ' ' :: alnumSpacesSkip r

/-- Companion of `alnumSpaces` inside a run of non-alphanumerics whose
single replacement space was already emitted. -/
def alnumSpacesSkip : List Char → List Char
  | [] => []
  | c :: r => if isLowerAlnum c then c :: alnumSpaces r else alnumSpacesSkip r

end

/-- Does `p` occur at the very start of the second list? -/
def beginsWith : List Char → List Char → Bool
  | [], _ => true
  | _ :: _, [] => false
  | p :: ps, c :: cs => p == c && beginsWith ps cs

/-- JS `String.prototype.includes`: does `pat` occur contiguously anywhere? -/
def hasSub (pat : List Char) : List Char → Bool
  | [] => beginsWith pat []
  | c :: r => beginsWith pat (c :: r) || hasSub pat r

/-- The source's `textIncludesWord`: word-boundary-ish containment check on
normalized text (pad both with a space, replace non-alphanumeric runs of the
haystack with spaces). -/
def textIncludesWord (text word : String) : Bool :=
  let t := ' ' :: (alnumSpaces (norm (some text)).data ++ [' '])
  let w := ' ' :: ((norm (some word)).data ++ [' '])
  hasSub w t

/-! ### Vendor catalog and detection -/

/-- The source's `VENDORS` array in its literal (pre-sort) order. -/
def VENDORS : List String :=
  ["Revolution Supply Co", "Radio Bike Co", "Cadillac Wheels", "Retrospec", "Reversal",
   "Whitespace", "GoZone Skimboards", "DB Skimboards", "Family", "Colony", "Dominator",
   "Drone", "Dial 911",
   "Habitat Skateboards", "Meow Skateboards", "Ocean Pacific", "Root Industries",
   "Triple Eight", "Essentials Skateboarding", "Grit", "Salt", "Sisu", "TLC", "Apex",
   "Academy", "Alien Workshop", "Blueprint BMXFIX", "BSD", "Cadillac", "Core", "Crisp",
   "Dial 911", "Division", "Doomed", "Drone Scooters", "Eclat", "Eight Ball", "Fiction BMX",
   "Figz Collection", "Flexsurfing", "Flypaper", "Fuse", "Graw Jump Ramps", "Habitat",
   "HangUp", "Heart Supply", "Hella Grip", "Hohing", "Indo", "JD Bug", "Jessup", "KFD",
   "Kitefix", "Longway", "Lucky", "Madrid", "Mafia", "Native", "North Scooters", "North",
   "Panda", "Pivot", "Prime8", "Primus", "Proto", "RAD Skateboards", "Rampage", "River",
   "Roces", "Rocker", "Root Industries", "Root", "Skatemate", "Speed Demons", "Stolen",
   "Striker", "Supreme",
   "Tall Order", "Tempish", "Tilt", "Triple Skate Hook", "Trynyty", "Venom", "Venor Skates",
   "Verb", "Wethepeople", "Wildcat", "Zoo York", "Odi"]

/-- Stable insertion into a length-descending list: the new element goes
after every element at least as long, so elements of equal length keep
their original relative order — exactly the result the (stable) JS
`Array.prototype.sort` with comparator `(a,b) => b.length - a.length`
produces. -/
def insByLen (x : String) : List String → List String
  | [] => [x]
  | y :: l => if x.length ≤ y.length then y :: insByLen x l else x :: y :: l

/-- The vendor catalog after the source's load-time
`.sort((a,b) => b.length - a.length)`. -/
def VENDORS_sorted : List String :=
  VENDORS.foldl (fun acc v => insByLen v acc) []

/-- The source's `detectVendor`: first whole-word match in the
length-descending catalog. -/
def detectVendor (fullText : String) : Option String :=
  VENDORS_sorted.find? (fun v => textIncludesWord fullText v)

/-! ### Price conversion (`toRON99_99`) -/

/-- The source's `EUR_TO_RON` constant. -/
def EUR_TO_RON : ℚ := 4.97

/-- Target price in RON cents for a present EUR amount, at a given rate:
`Math.ceil(eur * rate / 5) * 5 - 0.01`, scaled by 100.  JS numbers are
modelled as exact rationals. -/
def centsOfR (rate e : ℚ) : ℤ :=
  ⌈e * rate / 5⌉ * 500 - 1

/-- One decimal digit as a character. -/
def digitChar (d : ℕ) : Char :=
  match d with
  | 0 => '0' | 1 => '1' | 2 => '2' | 3 => '3' | 4 => '4'
  | 5 => '5' | 6 => '6' | 7 => '7' | 8 => '8' | _ => '9'

/-- Fuel-driven most-significant-first decimal rendering of a natural. -/
def natDigitsAux : ℕ → ℕ → List Char
  | 0, _ => []
  | f + 1, n => if n < 10 then [digitChar n] else natDigitsAux f (n / 10) ++ [digitChar (n % 10)]

/-- Decimal digit string of a natural number (`n + 1` fuel always suffices). -/
def natDigits (n : ℕ) : List Char := natDigitsAux (n + 1) n

/-- Two-digit zero-padded rendering for the cents part of `toFixed(2)`. -/
def twoDig (m : ℕ) : List Char := if m < 10 then '0' :: natDigits m else natDigits m

/-- Digits of a non-negative amount of cents, rendered `toFixed(2)`-style. -/
def centsRender (n : ℕ) : List Char := natDigits (n / 100) ++ '.' :: twoDig (n % 100)

/-- `Number.prototype.toFixed(2)` on an exact amount of cents. -/
def formatCents (c : ℤ) : String :=
  if c < 0 then String.mk ('-' :: centsRender c.natAbs) else String.mk (centsRender c.toNat)

/-- Rate-parametric form of the source's `toRON99_99`: `null` stays `null`,
a present amount is converted, bucketed up to the next 5-RON step, lowered
by one cent and formatted with two decimals. -/
def convertRate (rate : ℚ) : Option ℚ → Option String
  | none => none
  | some e => some (formatCents (centsOfR rate e))

/-- The source's `toRON99_99`, at its hard-coded EUR→RON rate. -/
def toRON99_99 (eur : Option ℚ) : Option String :=
  convertRate EUR_TO_RON eur

/-- The final two characters of a string (used to state the ".99" shape). -/
def lastTwoChars (s : String) : List Char := s.data.reverse.take 2

/-! ### Word-boundary regex model for the alias patterns

Every pattern of `PRODUCT_TYPE_ALIASES` (and of the clamp override) has the
form `\b item₁ item₂ … \b` where each item is a literal, an optional literal,
a one-character class, an optional one-character class, or `\s*`; all
patterns start and end on word characters.  The matcher below reproduces the
JS engine's behaviour on this fragment: items are matched left to right,
`\s*` greedily (its follower always starts with a non-space character, so
greediness loses no matches), optional items first with and then without
their content. -/

/-- One item of a (simplified) regex pattern. -/
inductive REItem where
  | lit (w : List Char)
  | opt (w : List Char)
  | oneOf (cs : List Char)
  | optOneOf (cs : List Char)
  | wsStar
deriving DecidableEq

/-- Strip a literal prefix, returning the rest on success. -/
def stripLit : List Char → List Char → Option (List Char)
  | [], s => some s
  | _ :: _, [] => none
  | p :: ps, c :: cs => if p == c then stripLit ps cs else none

/-- Match a sequence of items at the current position, returning what is
left of the input after the match. -/
def matchItems : List REItem → List Char → Option (List Char)
  | [], s => some s
  | REItem.lit w :: ps, s =>
    match stripLit w s with
    | some r => matchItems ps r
    | none => none
  | REItem.opt w :: ps, s =>
    (match stripLit w s with
     | some r => matchItems ps r
     | none => none) <|> matchItems ps s
  | REItem.oneOf cs :: ps, s =>
    match s with
    | c :: r => if cs.contains c then matchItems ps r else none
    | [] => none
  | REItem.optOneOf cs :: ps, s =>
    (match s with
     | c :: r => if cs.contains c then matchItems ps r else none
     | [] => none) <|> matchItems ps s
  | REItem.wsStar :: ps, s => matchItems ps (s.dropWhile isWsChar)

/-- Does the rest of the input start at a word boundary (end of input or a
non-word character)?  Used for the closing `\b`. -/
def atEndBoundary : List Char → Bool
  | [] => true
  | c :: _ => !isWordChar c

/-- Scan the text for a `\b items \b` match; `prevWord` records whether the
character just before the current position is a word character. -/
def reSearch (ps : List REItem) : List Char → Bool → Bool
  | s, prevWord =>
    (!prevWord &&
      (match matchItems ps s with
       | some rest => atEndBoundary rest
       | none => false)) ||
    (match s with
     | [] => false
     | c :: r => reSearch ps r (isWordChar c))

/-- Whole-text test of a `\b … \b` pattern, as `RegExp.prototype.test`. -/
def reTest (ps : List REItem) (s : List Char) : Bool :=
  reSearch ps s false

/-! ### Product-type catalog, aliases, and detection -/

/-- The source's `PRODUCT_TYPES` list, in order. -/
def PRODUCT_TYPES : List String :=
  ["Adaptor", "Bar End", "BPM", "Casca", "Ceara", "Clamp", "Complete", "Deck", "Deck End",
   "Distantieri", "Diverse", "Frana", "Furca", "Genunchiere", "Ghidon", "Glezniere", "Griptape",
   "Headset", "Imbracaminte", "Imbus", "Inbus", "Kendama", "Mansoane", "Peg", "Roti", "Roata", "Roți",
   "Rulmenti", "Sporting Goods", "Stand", "Sticker", "Suruburi", "Talpici"]

/-- Character class `[-\s]` used by `c[-\s]?ring` and `star[-\s]?nut`. -/
def dashOrWs : List Char := ['-', ' ', '\t', '\n', '\r', '\x0b', '\x0c']

/-- `/\bclamps?\b/i` on normalized (lower-case) text. -/
def clampsRE : List REItem := [REItem.lit "clamp".data, REItem.opt "s".data]

/-- `/\bclema\b/i` on normalized text. -/
def clemaRE : List REItem := [REItem.lit "clema".data]

/-- `/\bscs\b/i` on normalized text. -/
def scsRE : List REItem := [REItem.lit "scs".data]

/-- The source's `PRODUCT_TYPE_ALIASES` table: canonical name → patterns,
in the object's (insertion-ordered) entry order. -/
def PRODUCT_TYPE_ALIASES : List (String × List (List REItem)) :=
  [("Mansoane",
    [[REItem.lit "man".data, REItem.opt "s".data, REItem.lit "oane".data],
     [REItem.lit "grip".data, REItem.opt "s".data]]),
   ("Bar End",
    [[REItem.lit "bar".data, REItem.wsStar, REItem.lit "end".data, REItem.opt "s".data],
     [REItem.lit "bar".data, REItem.optOneOf ['-'], REItem.lit "end".data, REItem.opt "s".data],
     [REItem.lit "barend".data, REItem.opt "s".data]]),
   ("Clamp", [clampsRE, clemaRE, scsRE]),
   ("Adaptor",
    [[REItem.lit "adaptor".data, REItem.opt "s".data],
     [REItem.lit "adapter".data, REItem.opt "s".data],
     [REItem.lit "shim".data, REItem.opt "s".data],
     [REItem.lit "c".data, REItem.optOneOf dashOrWs, REItem.lit "ring".data],
     [REItem.lit "sleeve".data, REItem.opt "s".data]]),
   ("Distantieri",
    [[REItem.lit "spacer".data, REItem.opt "s".data],
     [REItem.lit "distantier".data, REItem.opt "i".data]]),
   ("Deck End",
    [[REItem.lit "deck".data, REItem.wsStar, REItem.lit "end".data, REItem.opt "s".data],
     [REItem.lit "plug".data, REItem.opt "s".data],
     [REItem.lit "plug".data]]),
   ("Ceara", [[REItem.lit "ceara".data], [REItem.lit "wax".data]]),
   ("Stand", [[REItem.lit "stand".data]]),
   ("Top Cap",
    [[REItem.lit "top".data, REItem.wsStar, REItem.lit "cap".data],
     [REItem.lit "star".data, REItem.optOneOf dashOrWs, REItem.lit "nut".data],
     [REItem.lit "starnut".data]]),
   ("Suruburi",
    [[REItem.lit "bolt".data, REItem.opt "s".data],
     [REItem.lit "surub".data, REItem.opt "uri".data],
     [REItem.lit "nut".data, REItem.opt "s".data],
     [REItem.lit "piulit".data, REItem.oneOf ['a', 'ă']],
     [REItem.lit "ax".data],
     [REItem.lit "osie".data, REItem.opt "i".data]]),
   ("Rulmenti",
    [[REItem.lit "bearing".data, REItem.opt "s".data],
     [REItem.lit "rulment".data, REItem.opt "i".data]]),
   ("Imbus",
    [[REItem.lit "tool".data, REItem.opt "s".data],
     [REItem.lit "imbus".data],
     [REItem.lit "inbus".data]])]

/-- The source's hard-priority clamp test on the normalized text. -/
def clampHit (ntext : String) : Bool :=
  reTest clampsRE ntext.data || reTest clemaRE ntext.data || reTest scsRE ntext.data

/-- The source's `detectProductType`: clamp override, then the alias table
in declared order, then a whole-word fallback over `PRODUCT_TYPES`. -/
def detectProductType (fullText : String) : Option String :=
  let ntext := norm (some fullText)
  if clampHit ntext then some "Clamp"
  else
    match PRODUCT_TYPE_ALIASES.find? (fun p => p.2.any (fun re => reTest re ntext.data)) with
    | some p => some p.1
    | none => PRODUCT_TYPES.find? (fun t => textIncludesWord ntext t)

/-! ### Euro-amount extraction

Model of the source's global regex
`/(\d{1,3}(?:[.,]\d{3})*|\d+)(?:[.,]\d+)?\s*€/g` and the two consumers
`pickPrices` (whole match `m[0]`) and `highestEuroOnPage` (group `m[1]`).
The JS engine's ordered alternation and greedy backtracking are reproduced:
for the first alternative, `\d{1,3}` tries 3, 2, 1 digits, the
`(?:[.,]\d{3})*` repetition is unwound from most to fewest repetitions;
after the group, an optional `[.,]\d+` is tried with its maximal digit run
first (a shorter run leaves a digit in front of `\s*€`, which can never
match, so only all-or-nothing matters), then `\s*€`. -/

/-- Is one of `.`/`,`? -/
def isSepChar (c : Char) : Bool := c == '.' || c == ','

/-- Exactly `k` leading digits (the following character may be anything). -/
def takeDigitsN : ℕ → List Char → Option (List Char × List Char)
  | 0, s => some ([], s)
  | _ + 1, [] => none
  | k + 1, c :: r =>
    if isDigitChar c then
      match takeDigitsN k r with
      | some (d, rest) => some (c :: d, rest)
      | none => none
    else none

/-- One `[.,]\d{3}` repetition. -/
def sepTriple : List Char → Option (List Char × List Char)
  | c :: d1 :: d2 :: d3 :: r =>
    if isSepChar c && isDigitChar d1 && isDigitChar d2 && isDigitChar d3 then
      some ([c, d1, d2, d3], r)
    else none
  | _ => none

/-- All backtracking states of `(?:[.,]\d{3})*`, most repetitions first
(the greedy order); the fuel only needs to exceed the input length. -/
def repsStates : ℕ → List Char → List (List Char × List Char)
  | 0, s => [([], s)]
  | f + 1, s =>
    match sepTriple s with
    | some (c4, r) => ((repsStates f r).map (fun p => (c4 ++ p.1, p.2))) ++ [([], s)]
    | none => [([], s)]

/-- `\s*€` at the current position. -/
def spaceEuro (s : List Char) : Option (List Char × List Char) :=
  let sp := s.takeWhile isWsChar
  match s.dropWhile isWsChar with
  | '€' :: r => some (sp ++ ['€'], r)
  | _ => none

/-- `(?:[.,]\d+)?\s*€`: the optional fraction (separator plus a non-empty
greedy digit run) first, else bare `\s*€`. -/
def tailMatch (s : List Char) : Option (List Char × List Char) :=
  (match s with
   | c :: r =>
     if isSepChar c then
       let ds := r.takeWhile isDigitChar
       if ds.isEmpty then none
       else
         match spaceEuro (r.dropWhile isDigitChar) with
         | some (sp, rest) => some (c :: (ds ++ sp), rest)
         | none => none
     else none
   | [] => none) <|>
  spaceEuro s

/-- First `some` in a list of attempts (ordered backtracking). -/
def firstSome : List (Option α) → Option α
  | [] => none
  | o :: l => o <|> firstSome l

/-- First alternative `\d{1,3}(?:[.,]\d{3})*` with `k` leading digits,
then the common tail.  Returns `(m0, m1, rest)`. -/
def tryK (k : ℕ) (s : List Char) : Option (List Char × List Char × List Char) :=
  match takeDigitsN k s with
  | none => none
  | some (d, s1) =>
    firstSome ((repsStates s1.length s1).map (fun p =>
      match tailMatch p.2 with
      | some (tl, rest) => some (d ++ p.1 ++ tl, d ++ p.1, rest)
      | none => none))

/-- Second alternative `\d+` (greedy, all digits), then the common tail. -/
def tryAllDigits (s : List Char) : Option (List Char × List Char × List Char) :=
  let d := s.takeWhile isDigitChar
  if d.isEmpty then none
  else
    match tailMatch (s.dropWhile isDigitChar) with
    | some (tl, rest) => some (d ++ tl, d, rest)
    | none => none

/-- Try a full match of the euro-amount regex at the current position. -/
def matchEuroAt (s : List Char) : Option (List Char × List Char × List Char) :=
  tryK 3 s <|> tryK 2 s <|> tryK 1 s <|> tryAllDigits s

/-- Global scan (`matchAll` semantics): leftmost match, then continue right
after it; fuel bounds the number of consumed characters. -/
def euroScan : ℕ → List Char → List (List Char × List Char)
  | 0, _ => []
  | _ + 1, [] =>
    match matchEuroAt [] with
    | some (m0, m1, _) => [(m0, m1)]
    | none => []
  | f + 1, c :: r =>
    match matchEuroAt (c :: r) with
    | some (m0, m1, rest) => (m0, m1) :: euroScan f rest
    | none => euroScan f r

/-- All `(m[0], m[1])` pairs of the euro regex over a text. -/
def euroMatches (txt : String) : List (List Char × List Char) :=
  euroScan txt.data.length txt.data

/-- `replace(/[^\d.,]/g, "")`. -/
def keepDigitSeps (l : List Char) : List Char :=
  l.filter (fun c => isDigitChar c || isSepChar c)

/-- `replace(/\./g, "")`. -/
def removeDots (l : List Char) : List Char :=
  l.filter (fun c => !(c == '.'))

/-- `replace(",", ".")` — JS replaces only the FIRST occurrence for a
string pattern. -/
def replaceFirstComma : List Char → List Char
  | [] => []
  | c :: r => if c == ',' then '.' :: r else c :: replaceFirstComma r

/-- Numeric value of a list of decimal digits. -/
def natOfDigits (l : List Char) : ℕ :=
  l.foldl (fun n c => 10 * n + (c.toNat - 48)) 0

/-- JS `Number(...)` on the strings this pipeline produces: digits with at
most one dot parse as a decimal, a leftover comma means `NaN` (`none`). -/
def jsNumber (l : List Char) : Option ℚ :=
  if l.contains ',' then none
  else
    match l.dropWhile (fun c => !(c == '.')) with
    | [] => some ((natOfDigits l : ℕ) : ℚ)
    | _ :: fp =>
      some (((natOfDigits (l.takeWhile (fun c => !(c == '.'))) : ℕ) : ℚ) +
        ((natOfDigits fp : ℕ) : ℚ) / 10 ^ fp.length)

/-- The source's `pickPrices`: every whole match, stripped to digits and
separators, dots removed, first comma turned into a dot, `Number`-parsed,
`NaN` dropped. -/
def pickPrices (txt : String) : List ℚ :=
  (euroMatches txt).filterMap (fun m => jsNumber (replaceFirstComma (removeDots (keepDigitSeps m.1))))

/-- The source's `highestEuroOnPage` (the pure part, applied to the page's
inner text): group 1 of every match, dots removed, first comma turned into
a dot, `Number`-parsed, `NaN` dropped, maximum taken (`null` when empty). -/
def highestEuroOnPage (txt : String) : Option ℚ :=
  match (euroMatches txt).filterMap (fun m => jsNumber (replaceFirstComma (removeDots m.2))) with
  | [] => none
  | e :: es => some (es.foldl max e)

/-! ### Variant assembly (step 11 of the route handler) -/

/-- One parsed variant row (`parsed.rows` entries): colour context, size
string, optional row price in EUR.  The JS guard `if (!r.size) continue`
treats an empty size string as absent. -/
structure VRow where
  color : Option String
  size : String
  priceEur : Option ℚ
deriving DecidableEq

/-- One Shopify variant as built by the source (only the computed fields;
the fixed inventory metadata is identical on every variant). -/
structure PVariant where
  option1 : String
  option2 : Option String
  price : Option String
deriving DecidableEq

/-- One Shopify option declaration. -/
structure POption where
  name : String
  values : List String
deriving DecidableEq

/-- The dedup key `` `${colorVal}|||${r.size}` ``. -/
def variantKey (c s : String) : String := c ++ "|||" ++ s

/-- One iteration of the sized branch's row loop: skip empty sizes, skip
already-seen `(colour, size)` keys (the JS `seen` set), otherwise record
the key and push a variant (price from the row if present, else the
page-wide fallback). -/
def sizedStep (allColours : List String) (fallback : Option ℚ)
    (st : List String × List PVariant) (r : VRow) : List String × List PVariant :=
  if r.size = "" then st
  else
    let colorVal := r.color.getD (allColours.headD "Default")
    let key := variantKey colorVal r.size
    if key ∈ st.1 then st
    else
      (key :: st.1,
       ⟨colorVal, some r.size, toRON99_99 (r.priceEur <|> fallback)⟩ :: st.2)

/-- The sized branch: one variant per first occurrence of a
`(colour, size)` key. -/
def buildSized (allColours sizes : List String) (rows : List VRow)
    (fallback : Option ℚ) : List POption × List PVariant :=
  ([⟨"Colour", allColours⟩, ⟨"Size", sizes⟩],
   (rows.foldl (sizedStep allColours fallback) ([], [])).2.reverse)

/-- The colour-only branch: one variant per colour value (a synthetic
`"Default"` when no colours at all), priced from the colour→price map when
resolvable, else the fallback. -/
def buildColourOnly (allColours : List String) (colourPriceMap : String → Option ℚ)
    (fallback : Option ℚ) : List POption × List PVariant :=
  let colourValues := if allColours.isEmpty then ["Default"] else allColours
  ([⟨"Colour", colourValues⟩],
   colourValues.map (fun color =>
     ⟨color, none, toRON99_99 ((colourPriceMap color) <|> fallback)⟩))

/-- Step 11 of the source: sized when any size was observed, else
colour-only. -/
def assemble (allColours sizes : List String) (rows : List VRow)
    (colourPriceMap : String → Option ℚ) (fallback : Option ℚ) :
    List POption × List PVariant :=
  if sizes.length > 0 then buildSized allColours sizes rows fallback
  else buildColourOnly allColours colourPriceMap fallback

/-! ### Word-level title deduplication (`dedupeTitleWords`) -/

mutual

/-- JS `split(/\s+/)` scanner: collecting the current token (in reverse).
Hitting a whitespace run emits the token; note JS's leading/trailing empty
tokens (`" a ".split(/\s+/) = ["", "a", ""]`). -/
def splitAux : List Char → List Char → List (List Char)
  | [], acc => [acc.reverse]
  | c :: r, acc =>
    if isWsChar c then acc.reverse :: splitSkip r else splitAux r (c :: acc)

/-- Companion of `splitAux` inside a whitespace run already split upon. -/
def splitSkip : List Char → List (List Char)
  | [] => [[]]
  | c :: r => if isWsChar c then splitSkip r else splitAux r [c]

end

/-- JS `split(/\s+/)` on a list of characters. -/
def wsSplit (l : List Char) : List (List Char) := splitAux l []

/-- Comparison key of one title token:
`stripDiacritics(tok).toLowerCase().replace(/[^a-z0-9]+/gi, "")`. -/
def wordKey (tok : List Char) : List Char :=
  (tok.map (fun c => (deaccent c).toLower)).filter isLowerAlnum

/-- The dedup loop of `dedupeTitleWords`: keep a token when its key is
empty (punctuation-ish) or not seen yet. -/
def keepLoop (seen : List (List Char)) : List (List Char) → List (List Char)
  | [] => []
  | tok :: ts =>
    let k := wordKey tok
    if k = [] then tok :: keepLoop seen ts
    else if k ∈ seen then keepLoop seen ts
    else tok :: keepLoop (k :: seen) ts

mutual

/-- `replace(/\s{2,}/g, " ")` scanner: a whitespace run of length ≥ 2
becomes one space, a single whitespace character stays as it is. -/
def collapseWs : List Char → List Char
  | [] => []
  | c :: r =>
    if isWsChar c then
      match r with
      | c2 :: _ => if isWsChar c2 then ' ' :: collapseSkip r else c :: collapseWs r
      | [] => c :: collapseWs r
    else c :: collapseWs r

/-- Companion of `collapseWs` inside a run whose replacement space was
already emitted. -/
def collapseSkip : List Char → List Char
  | [] => []
  | c :: r => if isWsChar c then collapseSkip r else c :: collapseWs r

end

/-- JS `Array.prototype.join(" ")` on a list of tokens. -/
def joinSp : List (List Char) → List Char
  | [] => []
  | [t] => t
  | t :: ts => t ++ ' ' :: joinSp ts

/-- JS `String.prototype.trim`. -/
def trimWs (l : List Char) : List Char :=
  ((l.dropWhile isWsChar).reverse.dropWhile isWsChar).reverse

/-- The source's `dedupeTitleWords`: split on whitespace, drop tokens whose
key was already seen (first occurrence wins, keyless tokens always kept),
re-join with single spaces, collapse double spaces, trim. -/
def dedupeTitleWords (title : String) : String :=
  if title = "" then title
  else
    String.mk (trimWs (collapseWs (joinSp (keepLoop [] (wsSplit title.data)))))

/-- Boolean check that a list of strings is ordered by non-increasing
length (the order the sorted vendor catalog is examined in). -/
def descByLen : List String → Bool
  | [] => true
  | [_] => true
  | a :: b :: r => (decide (b.length ≤ a.length)) && descByLen (b :: r)

/-! ### Theorems: price conversion (claims C2, C5, C10) -/

theorem natDigitsAux_ne_nil (f n : ℕ) (hf : 0 < f) : natDigitsAux f n ≠ [] := by
  match f, hf with
  | f + 1, _ =>
    unfold natDigitsAux
    split
    · simp
    · simp

theorem natDigitsAux_head (f n : ℕ) (hf : 0 < f) :
    ∃ d rest, d < 10 ∧ natDigitsAux f n = digitChar d :: rest := by
  induction f generalizing n with
  | zero => omega
  | succ f ih =>
    unfold natDigitsAux
    by_cases h : n < 10
    · exact ⟨n, [], h, by simp [h]⟩
    · rcases Nat.eq_zero_or_pos f with hf0 | hfpos
      · subst hf0
        exact ⟨n % 10, [], Nat.mod_lt _ (by omega), by simp [h, natDigitsAux]⟩
      · obtain ⟨d, rest, hd, heq⟩ := ih (n / 10) hfpos
        exact ⟨d, rest ++ [digitChar (n % 10)], hd, by simp [h, heq]⟩

theorem natDigits_head (n : ℕ) :
    ∃ d rest, d < 10 ∧ natDigits n = digitChar d :: rest :=
  natDigitsAux_head (n + 1) n (by omega)

theorem digitChar_lt_ten (d : ℕ) (h : d < 10) :
    digitChar d = '0' ∨ digitChar d = '1' ∨ digitChar d = '2' ∨ digitChar d = '3' ∨
    digitChar d = '4' ∨ digitChar d = '5' ∨ digitChar d = '6' ∨ digitChar d = '7' ∨
    digitChar d = '8' ∨ digitChar d = '9' := by
  interval_cases d <;> simp [digitChar]

theorem formatCents_of_mod99 (c : ℤ) (h0 : 0 ≤ c) (h99 : c.toNat % 100 = 99) :
    formatCents c = String.mk (natDigits (c.toNat / 100) ++ ['.', '9', '9']) := by
  unfold formatCents
  rw [if_neg (by omega)]
  unfold centsRender
  rw [h99]
  rfl

theorem lastTwoChars_mk_append (A : List Char) (x y z : Char) :
    lastTwoChars (String.mk (A ++ [x, y, z])) = [z, y] := by
  show (A ++ [x, y, z]).reverse.take 2 = [z, y]
  simp

/-- C2: for every positive source amount and positive conversion rate the
converted price (multiply, round up to the next 5-unit bucket, subtract
0.01, format with two decimals) ends in the digits "99"; the price in cents
is monotonically non-decreasing in the amount; scenario: amount 38.00 at
rate 4.97 yields "189.99" (both through the rate-parametric conversion and
through the source's fixed-rate `toRON99_99`). -/
theorem toRON99_shape_monotone (a b rate : ℚ) (ha : 0 < a) (hr : 0 < rate) (hab : a ≤ b) :
    Option.map lastTwoChars (convertRate rate (some a)) = some ['9', '9'] ∧
    centsOfR rate a ≤ centsOfR rate b ∧
    convertRate EUR_TO_RON (some 38) = some "189.99" ∧
    toRON99_99 (some 38) = some "189.99" := by
  have hceil38 : (⌈(38 : ℚ) * EUR_TO_RON / 5⌉ : ℤ) = 38 := by
    rw [show (38 : ℚ) * EUR_TO_RON / 5 = 9443 / 250 by norm_num [EUR_TO_RON]]
    rw [Int.ceil_eq_iff]; norm_num
  have hcents38 : centsOfR EUR_TO_RON 38 = 18999 := by
    unfold centsOfR
    rw [hceil38]
    norm_num
  have hscen : convertRate EUR_TO_RON (some 38) = some "189.99" := by
    show some (formatCents (centsOfR EUR_TO_RON 38)) = some "189.99"
    rw [hcents38]
    decide
  refine ⟨?_, ?_, hscen, hscen⟩
  · -- the ".99" shape for a positive amount at a positive rate
    have hpos : 0 < a * rate / 5 := by positivity
    have hk : 1 ≤ (⌈a * rate / 5⌉ : ℤ) := Int.ceil_pos.mpr hpos
    set k : ℤ := ⌈a * rate / 5⌉ with hkdef
    have hc : centsOfR rate a = k * 500 - 1 := rfl
    have h99 : (k * 500 - 1).toNat % 100 = 99 := by omega
    show some (lastTwoChars (formatCents (centsOfR rate a))) = some ['9', '9']
    rw [hc, formatCents_of_mod99 _ (by omega) h99, lastTwoChars_mk_append]
  · -- cents are monotone in the amount
    have h1 : a * rate ≤ b * rate := mul_le_mul_of_nonneg_right hab hr.le
    have h2 : a * rate / 5 ≤ b * rate / 5 := by gcongr
    have h3 := Int.ceil_le_ceil h2
    unfold centsOfR
    omega

theorem toRON99_shape_monotone_witness :
    (0 : ℚ) < 1 ∧ (0 : ℚ) < EUR_TO_RON ∧ (1 : ℚ) ≤ 2 ∧
    (Option.map lastTwoChars (convertRate EUR_TO_RON (some 1)) = some ['9', '9'] ∧
     centsOfR EUR_TO_RON 1 ≤ centsOfR EUR_TO_RON 2 ∧
     convertRate EUR_TO_RON (some 38) = some "189.99" ∧
     toRON99_99 (some 38) = some "189.99") :=
  ⟨by norm_num, by norm_num [EUR_TO_RON], by norm_num,
   toRON99_shape_monotone 1 2 EUR_TO_RON (by norm_num) (by norm_num [EUR_TO_RON])
     (by norm_num)⟩

theorem formatCents_neg_data (c : ℤ) (hc : c < 0) :
    (formatCents c).data = '-' :: centsRender c.natAbs := by
  unfold formatCents
  rw [if_pos hc]

/-- C5: the conversion yields an absent price exactly when the input amount
is absent; a present result is never the string "0.00". -/
theorem toRON99_absent (e : Option ℚ) (s : String) (h : toRON99_99 e = some s) :
    (∀ e2 : Option ℚ, (toRON99_99 e2 = none ↔ e2 = none)) ∧ s ≠ "0.00" := by
  constructor
  · intro e2
    cases e2 with
    | none => simp [toRON99_99, convertRate]
    | some a => simp [toRON99_99, convertRate]
  · cases e with
    | none => simp [toRON99_99, convertRate] at h
    | some a =>
      have hs : s = formatCents (centsOfR EUR_TO_RON a) := by
        simpa [toRON99_99, convertRate] using h.symm
      set k : ℤ := ⌈a * EUR_TO_RON / 5⌉ with hkdef
      have hc : centsOfR EUR_TO_RON a = k * 500 - 1 := rfl
      intro habs
      have hdata : s.data = "0.00".data := by rw [habs]
      by_cases hneg : k * 500 - 1 < 0
      · rw [hs, hc] at hdata
        rw [formatCents_neg_data _ hneg] at hdata
        simp [String.data] at hdata
      · have h99 : (k * 500 - 1).toNat % 100 = 99 := by omega
        rw [hs, hc, formatCents_of_mod99 _ (by omega) h99] at hdata
        have := congrArg List.reverse hdata
        simp [String.data] at this

theorem toRON99_absent_witness :
    toRON99_99 (some 1) = some "4.99" ∧
    ((∀ e2 : Option ℚ, (toRON99_99 e2 = none ↔ e2 = none)) ∧ "4.99" ≠ "0.00") := by
  have hceil : (⌈(1 : ℚ) * EUR_TO_RON / 5⌉ : ℤ) = 1 := by
    rw [show (1 : ℚ) * EUR_TO_RON / 5 = 497 / 500 by norm_num [EUR_TO_RON]]
    rw [Int.ceil_eq_iff]; norm_num
  have h : toRON99_99 (some 1) = some "4.99" := by
    show some (formatCents (centsOfR EUR_TO_RON 1)) = some "4.99"
    have : centsOfR EUR_TO_RON 1 = 499 := by
      unfold centsOfR
      rw [hceil]
      norm_num
    rw [this]
    decide
  exact ⟨h, toRON99_absent (some 1) "4.99" h⟩

/-- C10: a source amount of exactly 0 converts to the string "-0.01"
(0 rounds up to bucket boundary 0, then 0.01 is subtracted), and for any
non-positive amount the result's final digits are "01", not the ".99"
shape — the ".99" shape holds only for strictly positive amounts. -/
theorem toRON99_zero_amount (a : ℚ) (ha : a ≤ 0) :
    toRON99_99 (some 0) = some "-0.01" ∧
    Option.map lastTwoChars (toRON99_99 (some a)) = some ['1', '0'] ∧
    Option.map lastTwoChars (toRON99_99 (some a)) ≠ some ['9', '9'] := by
  have hzero : toRON99_99 (some 0) = some "-0.01" := by
    show some (formatCents (centsOfR EUR_TO_RON 0)) = some "-0.01"
    have : centsOfR EUR_TO_RON 0 = -1 := by
      unfold centsOfR
      rw [show (0 : ℚ) * EUR_TO_RON / 5 = 0 by norm_num]
      rw [Int.ceil_zero]
      norm_num
    rw [this]
    decide
  have hrate : (0 : ℚ) < EUR_TO_RON := by norm_num [EUR_TO_RON]
  have hnonpos : a * EUR_TO_RON / 5 ≤ 0 := by
    have h1 : a * EUR_TO_RON ≤ 0 := mul_nonpos_of_nonpos_of_nonneg ha hrate.le
    linarith
  have hk : (⌈a * EUR_TO_RON / 5⌉ : ℤ) ≤ 0 := by
    rw [Int.ceil_le]
    exact_mod_cast hnonpos
  set k : ℤ := ⌈a * EUR_TO_RON / 5⌉ with hkdef
  have hc : centsOfR EUR_TO_RON a = k * 500 - 1 := rfl
  have hneg : k * 500 - 1 < 0 := by omega
  have hlast : lastTwoChars (formatCents (k * 500 - 1)) = ['1', '0'] := by
    have hd := formatCents_neg_data _ hneg
    have hm : (k * 500 - 1).natAbs % 100 = 1 := by omega
    unfold lastTwoChars
    rw [hd]
    unfold centsRender
    rw [hm]
    show ('-' :: (natDigits ((k * 500 - 1).natAbs / 100) ++ ['.', '0', '1'])).reverse.take 2 =
      ['1', '0']
    simp
  have hmap : Option.map lastTwoChars (toRON99_99 (some a)) = some ['1', '0'] := by
    show some (lastTwoChars (formatCents (centsOfR EUR_TO_RON a))) = some ['1', '0']
    rw [hc, hlast]
  refine ⟨hzero, hmap, ?_⟩
  rw [hmap]
  simp

theorem toRON99_zero_amount_witness :
    (0 : ℚ) ≤ 0 ∧
    (toRON99_99 (some 0) = some "-0.01" ∧
     Option.map lastTwoChars (toRON99_99 (some 0)) = some ['1', '0'] ∧
     Option.map lastTwoChars (toRON99_99 (some 0)) ≠ some ['9', '9']) :=
  ⟨le_refl 0, toRON99_zero_amount 0 (le_refl 0)⟩

/-! ### Theorems: product-type classification (claims C4, C8) -/

/-- C4: any text whose normalized form contains a clamp-family marker (the
words "clamp"/"clamps", the Romanian "clema", or the token "scs", as
whole words) classifies as "Clamp" no matter what other category markers it
contains; scenario: "SCS Clamp Universal Bolt Kit" is "Clamp", not the
bolt/hardware category. -/
theorem detectProductType_clamp_override (t : String)
    (h : clampHit (norm (some t)) = true) :
    detectProductType t = some "Clamp" ∧
    detectProductType "SCS Clamp Universal Bolt Kit" = some "Clamp" := by
  constructor
  · unfold detectProductType
    simp only [h]
    rfl
  · decide

theorem detectProductType_clamp_override_witness :
    clampHit (norm (some "scs compression kit")) = true ∧
    (detectProductType "scs compression kit" = some "Clamp" ∧
     detectProductType "SCS Clamp Universal Bolt Kit" = some "Clamp") :=
  ⟨by decide, detectProductType_clamp_override "scs compression kit" (by decide)⟩

/-- C8 counterexample: the alias table maps "top cap" to the canonical name
"Top Cap", which is not a member of the fixed `PRODUCT_TYPES` catalog, so a
non-absent result of `detectProductType` can fall outside the catalog. -/
theorem detectProductType_top_cap_cex :
    detectProductType "top cap" = some "Top Cap" ∧ "Top Cap" ∉ PRODUCT_TYPES := by
  constructor
  · decide
  · decide

/-- C8 amended: every non-absent result of `detectProductType` is either a
member of the fixed `PRODUCT_TYPES` catalog or the alias-table-only
canonical name "Top Cap". -/
theorem detectProductType_mem (t r : String) (h : detectProductType t = some r) :
    r ∈ PRODUCT_TYPES ∨ r = "Top Cap" := by
  unfold detectProductType at h
  by_cases hc : clampHit (norm (some t))
  · simp only [hc, if_true] at h
    cases h
    left
    decide
  · simp only [hc, if_false, Bool.false_eq_true] at h
    cases hfind : PRODUCT_TYPE_ALIASES.find?
        (fun p => p.2.any (fun re => reTest re (norm (some t)).data)) with
    | some p =>
      rw [hfind] at h
      cases h
      have hmem : p ∈ PRODUCT_TYPE_ALIASES := List.mem_of_find?_eq_some hfind
      have hkeys : ∀ q ∈ PRODUCT_TYPE_ALIASES, q.1 ∈ PRODUCT_TYPES ∨ q.1 = "Top Cap" := by
        decide
      exact hkeys p hmem
    | none =>
      rw [hfind] at h
      left
      exact List.mem_of_find?_eq_some h

theorem detectProductType_mem_witness :
    detectProductType "ceara" = some "Ceara" ∧
    ("Ceara" ∈ PRODUCT_TYPES ∨ "Ceara" = "Top Cap") :=
  ⟨by decide, detectProductType_mem "ceara" "Ceara" (by decide)⟩

/-! ### Theorems: vendor detection (claim C3) -/

theorem descByLen_chain' (l : List String) (h : descByLen l = true) :
    List.Chain' (fun a b => b.length ≤ a.length) l := by
  induction l with
  | nil => simp
  | cons a l ih =>
    cases l with
    | nil => simp
    | cons b r =>
      unfold descByLen at h
      rw [Bool.and_eq_true] at h
      exact List.Chain'.cons (of_decide_eq_true h.1) (ih h.2)

theorem find?_first_split {α : Type} (p : α → Bool) (l : List α) (a : α)
    (h : l.find? p = some a) :
    ∃ l1 l2, l = l1 ++ a :: l2 ∧ p a = true ∧ ∀ u ∈ l1, p u = false := by
  induction l with
  | nil => simp [List.find?] at h
  | cons x xs ih =>
    by_cases hx : p x
    · rw [List.find?_cons_of_pos _ hx] at h
      cases h
      exact ⟨[], xs, rfl, hx, by simp⟩
    · rw [List.find?_cons_of_neg _ hx] at h
      obtain ⟨l1, l2, hsplit, hpa, hprev⟩ := ih h
      refine ⟨x :: l1, l2, by rw [hsplit, List.cons_append], hpa, ?_⟩
      intro u hu
      rcases List.mem_cons.mp hu with hux | hul
      · subst hux
        exact Bool.eq_false_iff.mpr hx
      · exact hprev u hul

/-- C3: the vendor catalog, as examined, is ordered by descending name
length; `detectVendor` returns the first catalog entry that is a whole-word
match in the (normalized) input — every entry before it fails the match —
and absent only when no entry matches; scenario: with both "Root
Industries" and "Root" in the catalog, "Root Industries Scooter Deck"
detects "Root Industries", never "Root". -/
theorem detectVendor_longest_first (t v : String) (h : detectVendor t = some v) :
    List.Chain' (fun a b => b.length ≤ a.length) VENDORS_sorted ∧
    (∃ l1 l2, VENDORS_sorted = l1 ++ v :: l2 ∧ textIncludesWord t v = true ∧
      ∀ u ∈ l1, textIncludesWord t u = false) ∧
    (∀ u : String, detectVendor u = none → ∀ w ∈ VENDORS_sorted, textIncludesWord u w = false) ∧
    detectVendor "Root Industries Scooter Deck" = some "Root Industries" := by
  refine ⟨descByLen_chain' _ (by decide), ?_, ?_, by decide⟩
  · exact find?_first_split _ _ _ h
  · intro u hu w hw
    have := List.find?_eq_none.mp hu w hw
    exact Bool.eq_false_iff.mpr this

theorem detectVendor_longest_first_witness :
    detectVendor "Root Industries Scooter Deck" = some "Root Industries" ∧
    (List.Chain' (fun a b => b.length ≤ a.length) VENDORS_sorted ∧
     (∃ l1 l2, VENDORS_sorted = l1 ++ "Root Industries" :: l2 ∧
       textIncludesWord "Root Industries Scooter Deck" "Root Industries" = true ∧
       ∀ u ∈ l1, textIncludesWord "Root Industries Scooter Deck" u = false) ∧
     (∀ u : String, detectVendor u = none →
       ∀ w ∈ VENDORS_sorted, textIncludesWord u w = false) ∧
     detectVendor "Root Industries Scooter Deck" = some "Root Industries") :=
  ⟨by decide,
   detectVendor_longest_first "Root Industries Scooter Deck" "Root Industries" (by decide)⟩

/-! ### Theorems: text normalization (claim C7) -/

/-- C7 counterexample: the source's `norm` does not collapse whitespace
runs — two consecutive spaces survive normalization verbatim. -/
theorem norm_whitespace_cex :
    norm (some "a  b") = "a  b" ∧ norm (some "a  b") ≠ "a b" := by
  constructor
  · decide
  · decide

/-- C7 amended: `norm` maps every character independently (diacritic fold
then lowercase), so the string's length — and every whitespace character,
verbatim, in place — is preserved and runs are never collapsed; it is a
total function; empty or absent input yields the empty string; diacritics
are stripped and letters lowercased, e.g. "Clemă  ÎNĂLȚIME" becomes
"clema  inaltime" with its double space intact. -/
theorem norm_amended (s : String) (c : Char) (hws : isWsChar c = true) :
    norm none = "" ∧ norm (some "") = "" ∧
    (norm (some s)).length = s.length ∧
    (norm (some s)).data = s.data.map normChar ∧
    normChar c = c ∧
    norm (some "Clemă  ÎNĂLȚIME") = "clema  inaltime" := by
  refine ⟨rfl, rfl, ?_, rfl, ?_, by decide⟩
  · show (s.data.map (fun c => (deaccent c).toLower)).length = s.data.length
    simp
  · have : c = ' ' ∨ c = '\t' ∨ c = '\n' ∨ c = '\r' ∨ c = '\x0b' ∨ c = '\x0c' := by
      simp only [isWsChar, Bool.or_eq_true, beq_iff_eq] at hws
      tauto
    rcases this with h | h | h | h | h | h <;> subst h <;> decide

theorem norm_amended_witness :
    isWsChar ' ' = true ∧
    (norm none = "" ∧ norm (some "") = "" ∧
     (norm (some "a  b")).length = ("a  b" : String).length ∧
     (norm (some "a  b")).data = ("a  b" : String).data.map normChar ∧
     normChar ' ' = ' ' ∧
     norm (some "Clemă  ÎNĂLȚIME") = "clema  inaltime") :=
  ⟨by decide, norm_amended "a  b" ' ' (by decide)⟩

/-! ### Theorems: euro-amount extraction (claim C6) -/

theorem jsNumber_no_dot (l : List Char) (n : ℕ) (hc : l.contains ',' = false)
    (hd : l.dropWhile (fun c => !(c == '.')) = ([] : List Char)) (hn : natOfDigits l = n) :
    jsNumber l = some (n : ℚ) := by
  unfold jsNumber
  rw [hc, hd, hn]
  simp

theorem jsNumber_one_dot (l fp : List Char) (ip fr : ℕ) (hc : l.contains ',' = false)
    (hd : l.dropWhile (fun c => !(c == '.')) = '.' :: fp)
    (ht : natOfDigits (l.takeWhile (fun c => !(c == '.'))) = ip)
    (hf : natOfDigits fp = fr) :
    jsNumber l = some ((ip : ℚ) + (fr : ℚ) / 10 ^ fp.length) := by
  unfold jsNumber
  rw [hc, hd]
  simp [ht, hf]

/-- C6 counterexample: on the text "188.86 €" the amount extractor does not
return the decimal 188.86 — `pickPrices` strips the dot as a thousands
separator and yields 18886, and `highestEuroOnPage` keeps only the
integer-part group and yields 188. -/
theorem pickPrices_dot_decimal_cex :
    pickPrices "188.86 €" = [(18886 : ℚ)] ∧
    highestEuroOnPage "188.86 €" = some (188 : ℚ) ∧
    (18886 : ℚ) ≠ 188.86 ∧ (188 : ℚ) ≠ 188.86 := by
  have hm : euroMatches "188.86 €" = [("188.86 €".data, "188".data)] := by decide
  have hs : replaceFirstComma (removeDots (keepDigitSeps "188.86 €".data)) = "18886".data := by
    decide
  have hs1 : replaceFirstComma (removeDots "188".data) = "188".data := by decide
  have hj : jsNumber "18886".data = some ((18886 : ℕ) : ℚ) :=
    jsNumber_no_dot _ _ (by decide) (by decide) (by decide)
  have hj1 : jsNumber "188".data = some ((188 : ℕ) : ℚ) :=
    jsNumber_no_dot _ _ (by decide) (by decide) (by decide)
  refine ⟨?_, ?_, by norm_num, by norm_num⟩
  · unfold pickPrices
    rw [hm]
    simp only [List.filterMap_cons, List.filterMap_nil, hs, hj]
    norm_num
  · unfold highestEuroOnPage
    rw [hm]
    simp only [List.filterMap_cons, List.filterMap_nil, hs1, hj1]
    norm_num

/-- C6 amended: the extractor finds every currency-marked amount in the
text, but fixes the comma as the decimal separator and treats every dot as
a thousands separator: "1.234,56 €" parses to 1234.56 and "12,5 €" to 12.5,
while the dot-decimal "188.86 €" parses to 18886 in `pickPrices`;
`highestEuroOnPage` keeps only the integer/thousands-part group of each
match (dropping any fraction), so "1.234,56 €" contributes 1234 there. -/
theorem pickPrices_separator_semantics :
    pickPrices "1.234,56 €" = [(1234.56 : ℚ)] ∧
    pickPrices "12,5 €" = [(12.5 : ℚ)] ∧
    pickPrices "188.86 €" = [(18886 : ℚ)] ∧
    pickPrices "5 € and 7 €" = [(5 : ℚ), (7 : ℚ)] ∧
    highestEuroOnPage "1.234,56 €" = some (1234 : ℚ) ∧
    highestEuroOnPage "188.86 € plus 1.234,56 €" = some (1234 : ℚ) := by
  have hm1 : euroMatches "1.234,56 €" = [("1.234,56 €".data, "1.234".data)] := by decide
  have hm2 : euroMatches "12,5 €" = [("12,5 €".data, "12".data)] := by decide
  have hm3 : euroMatches "188.86 €" = [("188.86 €".data, "188".data)] := by decide
  have hm4 : euroMatches "5 € and 7 €" = [("5 €".data, "5".data), ("7 €".data, "7".data)] := by
    decide
  have hm5 : euroMatches "188.86 € plus 1.234,56 €" =
      [("188.86 €".data, "188".data), ("1.234,56 €".data, "1.234".data)] := by decide
  have ht1 : replaceFirstComma (removeDots (keepDigitSeps "1.234,56 €".data)) =
      "1234.56".data := by decide
  have ht2 : replaceFirstComma (removeDots (keepDigitSeps "12,5 €".data)) = "12.5".data := by
    decide
  have ht3 : replaceFirstComma (removeDots (keepDigitSeps "188.86 €".data)) = "18886".data := by
    decide
  have ht4 : replaceFirstComma (removeDots (keepDigitSeps "5 €".data)) = "5".data := by decide
  have ht5 : replaceFirstComma (removeDots (keepDigitSeps "7 €".data)) = "7".data := by decide
  have hg1 : replaceFirstComma (removeDots "1.234".data) = "1234".data := by decide
  have hg3 : replaceFirstComma (removeDots "188".data) = "188".data := by decide
  have hja : jsNumber "1234.56".data = some ((1234 : ℕ) + ((56 : ℕ) : ℚ) / 10 ^ 2) := by
    have := jsNumber_one_dot "1234.56".data "56".data 1234 56 (by decide) (by decide)
      (by decide) (by decide)
    simpa using this
  have hjb : jsNumber "12.5".data = some ((12 : ℕ) + ((5 : ℕ) : ℚ) / 10 ^ 1) := by
    have := jsNumber_one_dot "12.5".data "5".data 12 5 (by decide) (by decide)
      (by decide) (by decide)
    simpa using this
  have hjc : jsNumber "18886".data = some ((18886 : ℕ) : ℚ) :=
    jsNumber_no_dot _ _ (by decide) (by decide) (by decide)
  have hjd : jsNumber "5".data = some ((5 : ℕ) : ℚ) :=
    jsNumber_no_dot _ _ (by decide) (by decide) (by decide)
  have hje : jsNumber "7".data = some ((7 : ℕ) : ℚ) :=
    jsNumber_no_dot _ _ (by decide) (by decide) (by decide)
  have hjf : jsNumber "1234".data = some ((1234 : ℕ) : ℚ) :=
    jsNumber_no_dot _ _ (by decide) (by decide) (by decide)
  have hjg : jsNumber "188".data = some ((188 : ℕ) : ℚ) :=
    jsNumber_no_dot _ _ (by decide) (by decide) (by decide)
  refine ⟨?_, ?_, ?_, ?_, ?_, ?_⟩
  · unfold pickPrices
    rw [hm1]
    simp only [List.filterMap_cons, List.filterMap_nil, ht1, hja]
    norm_num
  · unfold pickPrices
    rw [hm2]
    simp only [List.filterMap_cons, List.filterMap_nil, ht2, hjb]
    norm_num
  · unfold pickPrices
    rw [hm3]
    simp only [List.filterMap_cons, List.filterMap_nil, ht3, hjc]
    norm_num
  · unfold pickPrices
    rw [hm4]
    simp only [List.filterMap_cons, List.filterMap_nil, ht4, ht5, hjd, hje]
    norm_num
  · unfold highestEuroOnPage
    rw [hm1]
    simp only [List.filterMap_cons, List.filterMap_nil, hg1, hjf]
    norm_num
  · unfold highestEuroOnPage
    rw [hm5]
    simp only [List.filterMap_cons, List.filterMap_nil, hg1, hg3, hjf, hjg]
    norm_num

/-! ### Theorems: variant assembly (claim C1) -/

/-- C1 counterexample: with sizes present but no colours at all, the sized
branch declares `Colour` with an empty value list yet emits a variant whose
colour is the synthetic "Default" — that variant's option value is not a
member of the declared option's value list, refuting the invariant for
arbitrary inputs. -/
theorem assemble_default_colour_cex :
    (assemble [] ["M"] [⟨none, "M", none⟩] (fun _ => none) none).1 =
      [⟨"Colour", []⟩, ⟨"Size", ["M"]⟩] ∧
    (assemble [] ["M"] [⟨none, "M", none⟩] (fun _ => none) none).2 =
      [⟨"Default", some "M", none⟩] ∧
    ¬ (∀ v ∈ (assemble [] ["M"] [⟨none, "M", none⟩] (fun _ => none) none).2,
        ∀ o ∈ (assemble [] ["M"] [⟨none, "M", none⟩] (fun _ => none) none).1,
          o.name = "Colour" → v.option1 ∈ o.values) := by
  refine ⟨by decide, by decide, ?_⟩
  intro hall
  have := hall ⟨"Default", some "M", none⟩ (by decide) ⟨"Colour", []⟩ (by decide) (by decide)
  simp at this

/-- The head-or-default of a non-empty list is a member. -/
theorem headD_mem {α : Type} (l : List α) (d : α) (h : l ≠ []) : l.headD d ∈ l := by
  cases l with
  | nil => exact absurd rfl h
  | cons a r => exact List.mem_cons_self a r

/-- Invariant of the sized branch's fold: every accumulated variant has a
colour from the catalog and a size from the size list, its key is recorded
in the seen-set, and no two accumulated variants share a
`(colour, size)` pair. -/
theorem sizedStep_fold_inv (allColours : List String) (fallback : Option ℚ)
    (sizes : List String) (hcols : allColours ≠ [])
    (rows : List VRow)
    (hrc : ∀ r ∈ rows, ∀ c, r.color = some c → c ∈ allColours)
    (hrs : ∀ r ∈ rows, r.size ≠ "" → r.size ∈ sizes) :
    ∀ st : List String × List PVariant,
      (∀ v ∈ st.2, v.option1 ∈ allColours ∧
        ∃ sz, v.option2 = some sz ∧ sz ∈ sizes ∧ variantKey v.option1 sz ∈ st.1) →
      List.Pairwise (fun v w : PVariant =>
        ¬(v.option1 = w.option1 ∧ v.option2 = w.option2)) st.2 →
      ((∀ v ∈ (rows.foldl (sizedStep allColours fallback) st).2, v.option1 ∈ allColours ∧
        ∃ sz, v.option2 = some sz ∧ sz ∈ sizes ∧
          variantKey v.option1 sz ∈ (rows.foldl (sizedStep allColours fallback) st).1) ∧
       List.Pairwise (fun v w : PVariant =>
         ¬(v.option1 = w.option1 ∧ v.option2 = w.option2))
         (rows.foldl (sizedStep allColours fallback) st).2) := by
  induction rows with
  | nil => intro st hinv hpw; exact ⟨hinv, hpw⟩
  | cons r rows ih =>
    intro st hinv hpw
    have hrc' : ∀ q ∈ rows, ∀ c, q.color = some c → c ∈ allColours := by
      intro q hq; exact hrc q (List.mem_cons_of_mem r hq)
    have hrs' : ∀ q ∈ rows, q.size ≠ "" → q.size ∈ sizes := by
      intro q hq; exact hrs q (List.mem_cons_of_mem r hq)
    rw [List.foldl_cons]
    by_cases hsz : r.size = ""
    · rw [show sizedStep allColours fallback st r = st by simp [sizedStep, hsz]]
      exact ih hrc' hrs' st hinv hpw
    · set colorVal := r.color.getD (allColours.headD "Default") with hcv
      set key := variantKey colorVal r.size with hkey
      by_cases hk : key ∈ st.1
      · rw [show sizedStep allColours fallback st r = st by
          simp only [sizedStep, if_neg hsz]
          rw [← hcv, ← hkey, if_pos hk]]
        exact ih hrc' hrs' st hinv hpw
      · have hstep : sizedStep allColours fallback st r =
            (key :: st.1,
             ⟨colorVal, some r.size, toRON99_99 (r.priceEur <|> fallback)⟩ :: st.2) := by
          simp only [sizedStep, if_neg hsz]
          rw [← hcv, ← hkey, if_neg hk]
        rw [hstep]
        apply ih hrc' hrs'
        · -- the extended state still satisfies the membership invariant
          intro v hv
          rcases List.mem_cons.mp hv with hveq | hvold
          · subst hveq
            refine ⟨?_, r.size, rfl, hrs r (List.mem_cons_self r rows) hsz, ?_⟩
            · cases hcol : r.color with
              | none => simpa [hcv, hcol] using headD_mem allColours "Default" hcols
              | some c =>
                have := hrc r (List.mem_cons_self r rows) c hcol
                simpa [hcv, hcol] using this
            · exact List.mem_cons_self key st.1
          · obtain ⟨h1, sz, h2, h3, h4⟩ := hinv v hvold
            exact ⟨h1, sz, h2, h3, List.mem_cons_of_mem key h4⟩
        · -- the new variant clashes with no accumulated one
          refine List.Pairwise.cons ?_ hpw
          intro w hw hclash
          obtain ⟨h1, sz, h2, h3, h4⟩ := hinv w hw
          apply hk
          have hc1 : colorVal = w.option1 := hclash.1
          have hc2 : (some r.size : Option String) = w.option2 := hclash.2
          rw [h2] at hc2
          have hszeq : r.size = sz := by injection hc2
          rw [hkey, hc1, hszeq]
          exact h4

/-- C1 amended: for every input in which the colour list is duplicate-free,
every row colour (when present) appears in the colour list, every nonempty
row size appears in the size list, and the colour list is non-empty
whenever the size list is, the assembled record satisfies both invariants:
every variant's option values belong to the corresponding declared option's
value list, and no two variants carry the same (colour, size) pair (first
occurrence wins on duplicate keys).  Without the non-empty-colours
condition the code violates the membership invariant (see the
counterexample: a sized product with no colours gets an undeclared
"Default" colour). -/
theorem assemble_invariants (allColours sizes : List String) (rows : List VRow)
    (cpm : String → Option ℚ) (fallback : Option ℚ)
    (hnd : allColours.Nodup)
    (hrc : ∀ r ∈ rows, ∀ c, r.color = some c → c ∈ allColours)
    (hrs : ∀ r ∈ rows, r.size ≠ "" → r.size ∈ sizes)
    (hne : sizes ≠ [] → allColours ≠ []) :
    (∀ v ∈ (assemble allColours sizes rows cpm fallback).2,
      ∀ o ∈ (assemble allColours sizes rows cpm fallback).1,
        (o.name = "Colour" → v.option1 ∈ o.values) ∧
        (o.name = "Size" → ∀ sz, v.option2 = some sz → sz ∈ o.values)) ∧
    List.Pairwise (fun v w : PVariant =>
      ¬(v.option1 = w.option1 ∧ v.option2 = w.option2))
      (assemble allColours sizes rows cpm fallback).2 := by
  unfold assemble
  by_cases hlen : sizes.length > 0
  · -- sized branch
    have hcols : allColours ≠ [] := hne (by intro h; rw [h] at hlen; simp at hlen)
    rw [if_pos hlen]
    obtain ⟨hmem, hpw⟩ := sizedStep_fold_inv allColours fallback sizes hcols rows hrc hrs
      ([], []) (by simp) (by simp)
    constructor
    · intro v hv o ho
      unfold buildSized at hv ho
      rw [List.mem_reverse] at hv
      obtain ⟨h1, sz, h2, h3, _⟩ := hmem v hv
      have ho2 : o = ⟨"Colour", allColours⟩ ∨ o = ⟨"Size", sizes⟩ := by
        simpa using ho
      rcases ho2 with rfl | rfl
      · refine ⟨fun _ => h1, fun hname => ?_⟩
        simp at hname
      · refine ⟨fun hname => ?_, fun _ sz' hsz' => ?_⟩
        · simp at hname
        · rw [h2] at hsz'
          have : sz' = sz := by
            injection hsz' with hval
            exact hval.symm
          rw [this]
          exact h3
    · unfold buildSized
      show List.Pairwise _ (rows.foldl (sizedStep allColours fallback) ([], [])).2.reverse
      rw [List.pairwise_reverse]
      exact hpw.imp (fun h hclash => h ⟨hclash.1.symm, hclash.2.symm⟩)
  · -- colour-only branch
    rw [if_neg hlen]
    unfold buildColourOnly
    constructor
    · intro v hv o ho
      simp only [List.mem_singleton] at ho
      subst ho
      simp only [List.mem_map] at hv
      obtain ⟨c, hc, rfl⟩ := hv
      refine ⟨fun _ => hc, fun hname => ?_⟩
      simp at hname
    · have hndv : (if allColours.isEmpty then ["Default"] else allColours).Nodup := by
        by_cases he : allColours.isEmpty
        · rw [if_pos he]; decide
        · rw [if_neg he]; exact hnd
      rw [List.pairwise_map]
      refine hndv.imp ?_
      intro a b hab hclash
      exact hab hclash.1

theorem assemble_invariants_witness :
    (["Red", "Blue"] : List String).Nodup ∧
    (∀ v ∈ (assemble ["Red", "Blue"] ["M"]
        [⟨some "Red", "M", none⟩, ⟨none, "M", none⟩, ⟨some "Red", "M", none⟩]
        (fun _ => none) none).2,
      ∀ o ∈ (assemble ["Red", "Blue"] ["M"]
        [⟨some "Red", "M", none⟩, ⟨none, "M", none⟩, ⟨some "Red", "M", none⟩]
        (fun _ => none) none).1,
        (o.name = "Colour" → v.option1 ∈ o.values) ∧
        (o.name = "Size" → ∀ sz, v.option2 = some sz → sz ∈ o.values)) ∧
    List.Pairwise (fun v w : PVariant =>
      ¬(v.option1 = w.option1 ∧ v.option2 = w.option2))
      (assemble ["Red", "Blue"] ["M"]
        [⟨some "Red", "M", none⟩, ⟨none, "M", none⟩, ⟨some "Red", "M", none⟩]
        (fun _ => none) none).2 := by
  have h := assemble_invariants ["Red", "Blue"] ["M"]
    [⟨some "Red", "M", none⟩, ⟨none, "M", none⟩, ⟨some "Red", "M", none⟩]
    (fun _ => none) none (by decide)
    (by intro r hr c hc; fin_cases hr <;> simp_all)
    (by intro r hr hs; fin_cases hr <;> simp_all)
    (by intro _; simp)
  exact ⟨by decide, h.1, h.2⟩

/-! ### Theorems: word-level title deduplication (claim C9) -/

theorem isWsChar_space : isWsChar ' ' = true := rfl

theorem split_wsFree (n : ℕ) :
    ∀ l : List Char, l.length ≤ n →
      (∀ acc : List Char, (∀ c ∈ acc, isWsChar c = false) →
        ∀ t ∈ splitAux l acc, ∀ c ∈ t, isWsChar c = false) ∧
      (∀ t ∈ splitSkip l, ∀ c ∈ t, isWsChar c = false) := by
  induction n with
  | zero =>
    intro l hl
    have hnil : l = [] := List.length_eq_zero.mp (Nat.le_zero.mp hl)
    subst hnil
    constructor
    · intro acc hacc t ht c hc
      simp only [splitAux, List.mem_singleton] at ht
      subst ht
      exact hacc c (List.mem_reverse.mp hc)
    · intro t ht c hc
      simp only [splitSkip, List.mem_singleton] at ht
      subst ht
      simp at hc
  | succ n ih =>
    intro l hl
    cases l with
    | nil => exact ih [] (by simp)
    | cons ch r =>
      have hr : r.length ≤ n := by
        simp only [List.length_cons] at hl
        omega
      constructor
      · intro acc hacc t ht c hc
        by_cases hw : isWsChar ch
        · simp only [splitAux, hw, if_true] at ht
          rcases List.mem_cons.mp ht with h1 | h2
          · subst h1
            exact hacc c (List.mem_reverse.mp hc)
          · exact (ih r hr).2 t h2 c hc
        · simp only [splitAux, hw, if_false, Bool.false_eq_true] at ht
          refine (ih r hr).1 (ch :: acc) ?_ t ht c hc
          intro x hx
          rcases List.mem_cons.mp hx with h1 | h2
          · subst h1
            exact Bool.eq_false_iff.mpr hw
          · exact hacc x h2
      · intro t ht c hc
        by_cases hw : isWsChar ch
        · simp only [splitSkip, hw, if_true] at ht
          exact (ih r hr).2 t ht c hc
        · simp only [splitSkip, hw, if_false, Bool.false_eq_true] at ht
          refine (ih r hr).1 [ch] ?_ t ht c hc
          intro x hx
          simp only [List.mem_singleton] at hx
          subst hx
          exact Bool.eq_false_iff.mpr hw

theorem wsSplit_wsFree (l : List Char) : ∀ t ∈ wsSplit l, ∀ c ∈ t, isWsChar c = false :=
  fun t ht c hc => (split_wsFree l.length l le_rfl).1 [] (by simp) t ht c hc

theorem split_shape (n : ℕ) :
    ∀ l : List Char, l.length ≤ n →
      (∀ acc : List Char, acc ≠ [] →
        ∃ mid, (∀ t ∈ mid, t ≠ []) ∧
          (splitAux l acc = mid ∨ splitAux l acc = mid ++ [[]])) ∧
      (∃ mid, (∀ t ∈ mid, t ≠ []) ∧
        (splitSkip l = mid ∨ splitSkip l = mid ++ [[]])) := by
  induction n with
  | zero =>
    intro l hl
    have hnil : l = [] := List.length_eq_zero.mp (Nat.le_zero.mp hl)
    subst hnil
    constructor
    · intro acc hacc
      refine ⟨[acc.reverse], ?_, Or.inl rfl⟩
      intro t ht
      simp only [List.mem_singleton] at ht
      subst ht
      simpa using hacc
    · exact ⟨[], by simp, Or.inr rfl⟩
  | succ n ih =>
    intro l hl
    cases l with
    | nil => exact ih [] (by simp)
    | cons ch r =>
      have hr : r.length ≤ n := by
        simp only [List.length_cons] at hl
        omega
      constructor
      · intro acc hacc
        by_cases hw : isWsChar ch
        · obtain ⟨mid, hmid, hcase⟩ := (ih r hr).2
          refine ⟨acc.reverse :: mid, ?_, ?_⟩
          · intro t ht
            rcases List.mem_cons.mp ht with h1 | h2
            · subst h1
              simpa using hacc
            · exact hmid t h2
          · rcases hcase with h | h
            · exact Or.inl (by simp [splitAux, hw, h])
            · exact Or.inr (by simp [splitAux, hw, h])
        · obtain ⟨mid, hmid, hcase⟩ := (ih r hr).1 (ch :: acc) (by simp)
          refine ⟨mid, hmid, ?_⟩
          rcases hcase with h | h
          · exact Or.inl (by simp [splitAux, hw, h])
          · exact Or.inr (by simp [splitAux, hw, h])
      · by_cases hw : isWsChar ch
        · obtain ⟨mid, hmid, hcase⟩ := (ih r hr).2
          refine ⟨mid, hmid, ?_⟩
          rcases hcase with h | h
          · exact Or.inl (by simp [splitSkip, hw, h])
          · exact Or.inr (by simp [splitSkip, hw, h])
        · obtain ⟨mid, hmid, hcase⟩ := (ih r hr).1 [ch] (by simp)
          refine ⟨mid, hmid, ?_⟩
          rcases hcase with h | h
          · exact Or.inl (by simp [splitSkip, hw, h])
          · exact Or.inr (by simp [splitSkip, hw, h])

theorem wsSplit_shape (l : List Char) :
    ∃ mid, (∀ t ∈ mid, t ≠ []) ∧
      (wsSplit l = mid ∨ wsSplit l = [] :: mid ∨
       wsSplit l = mid ++ [[]] ∨ wsSplit l = [] :: (mid ++ [[]])) := by
  cases l with
  | nil => exact ⟨[], by simp, Or.inr (Or.inl rfl)⟩
  | cons ch r =>
    by_cases hw : isWsChar ch
    · have heq : wsSplit (ch :: r) = [] :: splitSkip r := by
        simp [wsSplit, splitAux, hw]
      obtain ⟨mid, hmid, hcase⟩ := (split_shape r.length r le_rfl).2
      rcases hcase with h | h
      · exact ⟨mid, hmid, Or.inr (Or.inl (by rw [heq, h]))⟩
      · exact ⟨mid, hmid, Or.inr (Or.inr (Or.inr (by rw [heq, h])))⟩
    · have heq : wsSplit (ch :: r) = splitAux r [ch] := by
        simp [wsSplit, splitAux, hw]
      obtain ⟨mid, hmid, hcase⟩ := (split_shape r.length r le_rfl).1 [ch] (by simp)
      rcases hcase with h | h
      · exact ⟨mid, hmid, Or.inl (by rw [heq, h])⟩
      · exact ⟨mid, hmid, Or.inr (Or.inr (Or.inl (by rw [heq, h])))⟩

theorem splitAux_chunk (t : List Char) (hws : ∀ c ∈ t, isWsChar c = false) :
    ∀ (l acc : List Char), splitAux (t ++ l) acc = splitAux l (t.reverse ++ acc) := by
  induction t with
  | nil => intro l acc; simp
  | cons c t ih =>
    intro l acc
    have hc : isWsChar c = false := hws c (List.mem_cons_self c t)
    have ht : ∀ x ∈ t, isWsChar x = false := fun x hx => hws x (List.mem_cons_of_mem c hx)
    show splitAux (c :: (t ++ l)) acc = _
    simp only [splitAux, hc, if_false, Bool.false_eq_true]
    rw [ih ht l (c :: acc)]
    simp

theorem splitAux_all_nonws (t : List Char) (hws : ∀ c ∈ t, isWsChar c = false)
    (acc : List Char) : splitAux t acc = [acc.reverse ++ t] := by
  have h := splitAux_chunk t hws [] acc
  rw [List.append_nil] at h
  rw [h]
  simp [splitAux]

theorem splitSkip_cons_nonws (c : Char) (r : List Char) (hc : isWsChar c = false) :
    splitSkip (c :: r) = wsSplit (c :: r) := by
  simp [splitSkip, wsSplit, splitAux, hc]

theorem wsSplit_joinSp (ts : List (List Char)) (hne : ts ≠ [])
    (hall : ∀ t ∈ ts, t ≠ [] ∧ ∀ c ∈ t, isWsChar c = false) :
    wsSplit (joinSp ts) = ts := by
  induction ts with
  | nil => exact absurd rfl hne
  | cons t ts ih =>
    cases ts with
    | nil =>
      have h := hall t (by simp)
      show splitAux t [] = [t]
      rw [splitAux_all_nonws t h.2 []]
      simp
    | cons u ts' =>
      have ht := hall t (by simp)
      have hu := hall u (by simp)
      show splitAux (t ++ ' ' :: joinSp (u :: ts')) [] = t :: u :: ts'
      rw [splitAux_chunk t ht.2]
      rw [List.append_nil]
      rw [show splitAux (' ' :: joinSp (u :: ts')) t.reverse =
            t.reverse.reverse :: splitSkip (joinSp (u :: ts')) by
        simp [splitAux, isWsChar_space]]
      rw [List.reverse_reverse]
      obtain ⟨cu, ru, hcu⟩ : ∃ cu ru, u = cu :: ru := by
        cases u with
        | nil => exact absurd rfl hu.1
        | cons a b => exact ⟨a, b, rfl⟩
      have hju : ∃ rest, joinSp (u :: ts') = cu :: rest := by
        cases ts' with
        | nil => exact ⟨ru, by rw [hcu]; simp [joinSp]⟩
        | cons w ws => exact ⟨ru ++ ' ' :: joinSp (w :: ws), by rw [hcu]; rfl⟩
      obtain ⟨rest, hrest⟩ := hju
      have hcu_nonws : isWsChar cu = false := hu.2 cu (by rw [hcu]; exact List.mem_cons_self _ _)
      rw [hrest, splitSkip_cons_nonws cu rest hcu_nonws, ← hrest]
      rw [ih (by simp) (fun x hx => hall x (List.mem_cons_of_mem t hx))]

theorem getLast?_mem_list {α : Type} (l : List α) (a : α) (h : l.getLast? = some a) :
    a ∈ l := by
  obtain ⟨hne, heq⟩ := List.mem_getLast?_eq_getLast (show a ∈ l.getLast? by rw [h]; rfl)
  rw [heq]
  exact List.getLast_mem hne

theorem joinSp_cons_cons (t u : List Char) (ts : List (List Char)) :
    joinSp (t :: u :: ts) = t ++ ' ' :: joinSp (u :: ts) := rfl

theorem joinSp_starts (a : Char) (r : List Char) (ts : List (List Char)) :
    ∃ rest, joinSp ((a :: r) :: ts) = a :: rest := by
  cases ts with
  | nil => exact ⟨r, rfl⟩
  | cons u ts' => exact ⟨r ++ ' ' :: joinSp (u :: ts'), rfl⟩

theorem joinSp_ne_nil (mid : List (List Char)) (hne : mid ≠ [])
    (hall : ∀ t ∈ mid, t ≠ []) : joinSp mid ≠ [] := by
  cases mid with
  | nil => exact absurd rfl hne
  | cons t ts =>
    have ht : t ≠ [] := hall t (by simp)
    obtain ⟨a, r, rfl⟩ : ∃ a r, t = a :: r := by
      cases t with
      | nil => exact absurd rfl ht
      | cons a r => exact ⟨a, r, rfl⟩
    obtain ⟨rest, hrest⟩ := joinSp_starts a r ts
    rw [hrest]
    simp

theorem joinSp_head_nonws (mid : List (List Char))
    (hall : ∀ t ∈ mid, t ≠ [] ∧ ∀ c ∈ t, isWsChar c = false) :
    ∀ c, (joinSp mid).head? = some c → isWsChar c = false := by
  cases mid with
  | nil => intro c hc; simp [joinSp] at hc
  | cons t ts =>
    have ht := hall t (by simp)
    obtain ⟨a, r, rfl⟩ : ∃ a r, t = a :: r := by
      cases t with
      | nil => exact absurd rfl ht.1
      | cons a r => exact ⟨a, r, rfl⟩
    obtain ⟨rest, hrest⟩ := joinSp_starts a r ts
    intro c hc
    rw [hrest] at hc
    simp only [List.head?_cons, Option.some.injEq] at hc
    subst hc
    exact ht.2 _ (List.mem_cons_self _ _)

theorem joinSp_last_nonws (mid : List (List Char))
    (hall : ∀ t ∈ mid, t ≠ [] ∧ ∀ c ∈ t, isWsChar c = false) :
    ∀ c, (joinSp mid).getLast? = some c → isWsChar c = false := by
  induction mid with
  | nil => intro c hc; simp [joinSp] at hc
  | cons t ts ih =>
    cases ts with
    | nil =>
      intro c hc
      have ht := hall t (by simp)
      exact ht.2 c (getLast?_mem_list t c hc)
    | cons u ts' =>
      intro c hc
      rw [joinSp_cons_cons] at hc
      have hune : joinSp (u :: ts') ≠ [] :=
        joinSp_ne_nil (u :: ts') (by simp)
          (fun x hx => (hall x (List.mem_cons_of_mem t hx)).1)
      obtain ⟨b, rb, hurw⟩ : ∃ b rb, joinSp (u :: ts') = b :: rb := by
        cases hu : joinSp (u :: ts') with
        | nil => exact absurd hu hune
        | cons b rb => exact ⟨b, rb, rfl⟩
      rw [List.getLast?_append] at hc
      rw [hurw] at hc
      have : (' ' :: b :: rb).getLast? = (b :: rb).getLast? := List.getLast?_cons_cons
      rw [this] at hc
      rw [show ((b :: rb).getLast?.or (t.getLast?)) = (b :: rb).getLast? by
        cases hbb : (b :: rb).getLast? with
        | none => simp [List.getLast?] at hbb
        | some x => rfl] at hc
      rw [← hurw] at hc
      exact ih (fun x hx => hall x (List.mem_cons_of_mem t hx)) c hc

theorem chain'_nodouble_of_nonws (l : List Char) (h : ∀ c ∈ l, isWsChar c = false) :
    List.Chain' (fun a b => isWsChar a = false ∨ isWsChar b = false) l := by
  induction l with
  | nil => simp
  | cons a r ih =>
    rw [List.chain'_cons']
    constructor
    · intro y _
      exact Or.inl (h a (List.mem_cons_self a r))
    · exact ih (fun c hc => h c (List.mem_cons_of_mem a hc))

theorem joinSp_chain' (mid : List (List Char))
    (hall : ∀ t ∈ mid, t ≠ [] ∧ ∀ c ∈ t, isWsChar c = false) :
    List.Chain' (fun a b => isWsChar a = false ∨ isWsChar b = false) (joinSp mid) := by
  induction mid with
  | nil => simp [joinSp]
  | cons t ts ih =>
    cases ts with
    | nil => exact chain'_nodouble_of_nonws t (hall t (by simp)).2
    | cons u ts' =>
      rw [joinSp_cons_cons]
      rw [List.chain'_append]
      have htail : ∀ x ∈ u :: ts', x ≠ [] ∧ ∀ c ∈ x, isWsChar c = false :=
        fun x hx => hall x (List.mem_cons_of_mem t hx)
      refine ⟨chain'_nodouble_of_nonws t (hall t (by simp)).2, ?_, ?_⟩
      · rw [List.chain'_cons']
        constructor
        · intro y hy
          exact Or.inr (joinSp_head_nonws (u :: ts') htail y hy)
        · exact ih htail
      · intro x hx y _
        exact Or.inl ((hall t (by simp)).2 x (getLast?_mem_list t x (Option.mem_def.mp hx)))

theorem collapseWs_cons (c : Char) (r : List Char) :
    collapseWs (c :: r) =
      if isWsChar c then
        match r with
        | c2 :: _ => if isWsChar c2 then ' ' :: collapseSkip r else c :: collapseWs r
        | [] => c :: collapseWs r
      else c :: collapseWs r := by
  rfl

theorem collapseWs_noop (l : List Char)
    (h : List.Chain' (fun a b => isWsChar a = false ∨ isWsChar b = false) l) :
    collapseWs l = l := by
  induction l with
  | nil => rfl
  | cons c r ih =>
    cases r with
    | nil =>
      rw [collapseWs_cons]
      by_cases hw : isWsChar c
      · rw [if_pos hw]
        show c :: collapseWs [] = [c]
        rfl
      · rw [if_neg hw]
        rfl
    | cons c2 r2 =>
      rw [List.chain'_cons] at h
      rw [collapseWs_cons]
      by_cases hw : isWsChar c
      · have h2 : isWsChar c2 = false := by
          rcases h.1 with h1 | h1
          · rw [hw] at h1; cases h1
          · exact h1
        rw [if_pos hw]
        show (if isWsChar c2 then ' ' :: collapseSkip (c2 :: r2)
          else c :: collapseWs (c2 :: r2)) = c :: c2 :: r2
        rw [h2]
        simp only [Bool.false_eq_true, if_false]
        rw [ih h.2]
      · rw [if_neg hw]
        rw [ih h.2]

theorem dropWhile_eq_self_of_head (l : List Char)
    (h : ∀ c, l.head? = some c → isWsChar c = false) :
    l.dropWhile isWsChar = l := by
  cases l with
  | nil => rfl
  | cons a r =>
    rw [List.dropWhile_cons, h a rfl]
    simp

theorem trimWs_noop (l : List Char)
    (h1 : ∀ c, l.head? = some c → isWsChar c = false)
    (h2 : ∀ c, l.getLast? = some c → isWsChar c = false) : trimWs l = l := by
  unfold trimWs
  rw [dropWhile_eq_self_of_head l h1]
  rw [dropWhile_eq_self_of_head l.reverse (by
    intro c hc
    rw [List.head?_reverse] at hc
    exact h2 c hc)]
  exact List.reverse_reverse l

theorem trimWs_cons_space (l : List Char) : trimWs (' ' :: l) = trimWs l := by
  unfold trimWs
  rw [List.dropWhile_cons]
  simp [isWsChar_space]

theorem trimWs_append_space (l : List Char) (hne : l ≠ [])
    (h1 : ∀ c, l.head? = some c → isWsChar c = false)
    (h2 : ∀ c, l.getLast? = some c → isWsChar c = false) :
    trimWs (l ++ [' ']) = l := by
  unfold trimWs
  have e1 : (l ++ [' ']).dropWhile isWsChar = l ++ [' '] := by
    apply dropWhile_eq_self_of_head
    intro c hc
    cases l with
    | nil => exact absurd rfl hne
    | cons a r =>
      simp only [List.cons_append, List.head?_cons, Option.some.injEq] at hc
      subst hc
      exact h1 _ rfl
  rw [e1]
  have e2 : (l ++ [' ']).reverse = ' ' :: l.reverse := by simp
  rw [e2]
  rw [List.dropWhile_cons]
  simp only [isWsChar_space, if_true]
  rw [dropWhile_eq_self_of_head l.reverse (by
    intro c hc
    rw [List.head?_reverse] at hc
    exact h2 c hc)]
  exact List.reverse_reverse l

theorem keepLoop_cons (seen : List (List Char)) (tok : List Char) (ts : List (List Char)) :
    keepLoop seen (tok :: ts) =
      if wordKey tok = [] then tok :: keepLoop seen ts
      else if wordKey tok ∈ seen then keepLoop seen ts
      else tok :: keepLoop (wordKey tok :: seen) ts := rfl

theorem keepLoop_sublist (seen : List (List Char)) (ts : List (List Char)) :
    (keepLoop seen ts).Sublist ts := by
  induction ts generalizing seen with
  | nil => simp [keepLoop]
  | cons tok ts ih =>
    rw [keepLoop_cons]
    by_cases h1 : wordKey tok = []
    · rw [if_pos h1]
      exact (ih seen).cons₂ tok
    · rw [if_neg h1]
      by_cases h2 : wordKey tok ∈ seen
      · rw [if_pos h2]
        exact (ih seen).cons tok
      · rw [if_neg h2]
        exact (ih (wordKey tok :: seen)).cons₂ tok

theorem keepLoop_fresh (seen : List (List Char)) (ts : List (List Char)) :
    ∀ t ∈ keepLoop seen ts, wordKey t ≠ [] → wordKey t ∉ seen := by
  induction ts generalizing seen with
  | nil => simp [keepLoop]
  | cons tok ts ih =>
    rw [keepLoop_cons]
    by_cases h1 : wordKey tok = []
    · rw [if_pos h1]
      intro t ht hk
      rcases List.mem_cons.mp ht with h | h
      · subst h
        exact absurd h1 hk
      · exact ih seen t h hk
    · rw [if_neg h1]
      by_cases h2 : wordKey tok ∈ seen
      · rw [if_pos h2]
        exact ih seen
      · rw [if_neg h2]
        intro t ht hk
        rcases List.mem_cons.mp ht with h | h
        · subst h
          exact h2
        · intro hmem
          exact ih (wordKey tok :: seen) t h hk (List.mem_cons_of_mem _ hmem)

theorem keepLoop_pairwiseKeys (seen : List (List Char)) (ts : List (List Char)) :
    List.Pairwise (fun a b => wordKey a ≠ [] → wordKey b ≠ [] → wordKey a ≠ wordKey b)
      (keepLoop seen ts) := by
  induction ts generalizing seen with
  | nil => simp [keepLoop]
  | cons tok ts ih =>
    rw [keepLoop_cons]
    by_cases h1 : wordKey tok = []
    · rw [if_pos h1]
      refine List.Pairwise.cons ?_ (ih seen)
      intro b _ hk
      exact absurd h1 hk
    · rw [if_neg h1]
      by_cases h2 : wordKey tok ∈ seen
      · rw [if_pos h2]
        exact ih seen
      · rw [if_neg h2]
        refine List.Pairwise.cons ?_ (ih (wordKey tok :: seen))
        intro b hb _ hkb
        intro heq
        exact keepLoop_fresh (wordKey tok :: seen) ts b hb hkb
          (heq ▸ List.mem_cons_self _ _)

theorem keepLoop_id (seen : List (List Char)) (ts : List (List Char))
    (hfresh : ∀ t ∈ ts, wordKey t ≠ [] → wordKey t ∉ seen)
    (hpw : List.Pairwise (fun a b => wordKey a ≠ [] → wordKey b ≠ [] → wordKey a ≠ wordKey b)
      ts) :
    keepLoop seen ts = ts := by
  induction ts generalizing seen with
  | nil => rfl
  | cons tok ts ih =>
    rw [List.pairwise_cons] at hpw
    rw [keepLoop_cons]
    by_cases h1 : wordKey tok = []
    · rw [if_pos h1]
      rw [ih seen (fun t ht => hfresh t (List.mem_cons_of_mem _ ht)) hpw.2]
    · have h2 : wordKey tok ∉ seen := hfresh tok (List.mem_cons_self _ _) h1
      rw [if_neg h1, if_neg h2]
      rw [ih (wordKey tok :: seen) ?_ hpw.2]
      intro t ht hk hmem
      rcases List.mem_cons.mp hmem with h | h
      · exact hpw.1 t ht h1 hk h.symm
      · exact hfresh t (List.mem_cons_of_mem _ ht) hk h

theorem keepLoop_cons_empty (seen : List (List Char)) (ts : List (List Char)) :
    keepLoop seen ([] :: ts) = [] :: keepLoop seen ts := rfl

theorem keepLoop_append_empty (seen : List (List Char)) (ts : List (List Char)) :
    keepLoop seen (ts ++ [[]]) = keepLoop seen ts ++ [[]] := by
  induction ts generalizing seen with
  | nil => rfl
  | cons tok ts ih =>
    rw [List.cons_append, keepLoop_cons, keepLoop_cons]
    by_cases h1 : wordKey tok = []
    · rw [if_pos h1, if_pos h1, List.cons_append, ih]
    · rw [if_neg h1, if_neg h1]
      by_cases h2 : wordKey tok ∈ seen
      · rw [if_pos h2, if_pos h2]
        exact ih seen
      · rw [if_neg h2, if_neg h2, List.cons_append, ih]

theorem joinSp_append_empty (mid : List (List Char)) (hne : mid ≠ []) :
    joinSp (mid ++ [[]]) = joinSp mid ++ [' '] := by
  induction mid with
  | nil => exact absurd rfl hne
  | cons t ts ih =>
    cases ts with
    | nil => rfl
    | cons u ts' =>
      have hih := ih (by simp)
      calc joinSp ((t :: u :: ts') ++ [[]])
          = t ++ ' ' :: joinSp ((u :: ts') ++ [[]]) := joinSp_cons_cons t u (ts' ++ [[]])
        _ = t ++ ' ' :: (joinSp (u :: ts') ++ [' ']) := by rw [hih]
        _ = (t ++ ' ' :: joinSp (u :: ts')) ++ [' '] := by simp

theorem filter_nonempty_eq_self (mid : List (List Char)) (hmid : ∀ t ∈ mid, t ≠ []) :
    mid.filter (fun t => !t.isEmpty) = mid := by
  rw [List.filter_eq_self]
  intro t ht
  have hemp : t.isEmpty = false := by
    cases htt : t.isEmpty
    · rfl
    · exact absurd (List.isEmpty_iff.mp htt) (hmid t ht)
  rw [hemp]
  rfl

theorem trimCollapseJoin (out : List (List Char))
    (hshape : ∃ mid, (∀ t ∈ mid, t ≠ []) ∧
      (out = mid ∨ out = [] :: mid ∨ out = mid ++ [[]] ∨ out = [] :: (mid ++ [[]])))
    (hws : ∀ t ∈ out, ∀ c ∈ t, isWsChar c = false) :
    trimWs (collapseWs (joinSp out)) = joinSp (out.filter (fun t => !t.isEmpty)) := by
  obtain ⟨mid, hmid, hcase⟩ := hshape
  have hmidws : ∀ t ∈ mid, ∀ c ∈ t, isWsChar c = false := by
    intro t ht
    apply hws t
    rcases hcase with rfl | rfl | rfl | rfl
    · exact ht
    · exact List.mem_cons_of_mem _ ht
    · exact List.mem_append_left _ ht
    · exact List.mem_cons_of_mem _ (List.mem_append_left _ ht)
  have hmidfull : ∀ t ∈ mid, t ≠ [] ∧ ∀ c ∈ t, isWsChar c = false :=
    fun t ht => ⟨hmid t ht, hmidws t ht⟩
  rcases hcase with h | h | h | h <;> rw [h]
  · -- out = mid
    rw [filter_nonempty_eq_self mid hmid]
    rw [collapseWs_noop _ (joinSp_chain' mid hmidfull)]
    exact trimWs_noop _ (joinSp_head_nonws mid hmidfull) (joinSp_last_nonws mid hmidfull)
  · -- out = [] :: mid
    have hf : ([] :: mid).filter (fun t => !t.isEmpty) = mid.filter (fun t => !t.isEmpty) := by
      simp
    rw [hf, filter_nonempty_eq_self mid hmid]
    cases mid with
    | nil => rfl
    | cons u ts =>
      rw [show joinSp ([] :: u :: ts) = ' ' :: joinSp (u :: ts) by
        rw [joinSp_cons_cons]; rfl]
      have hch : List.Chain' (fun a b => isWsChar a = false ∨ isWsChar b = false)
          (' ' :: joinSp (u :: ts)) := by
        rw [List.chain'_cons']
        constructor
        · intro y hy
          exact Or.inr (joinSp_head_nonws (u :: ts) hmidfull y (Option.mem_def.mp hy))
        · exact joinSp_chain' (u :: ts) hmidfull
      rw [collapseWs_noop _ hch]
      rw [trimWs_cons_space]
      exact trimWs_noop _ (joinSp_head_nonws (u :: ts) hmidfull)
        (joinSp_last_nonws (u :: ts) hmidfull)
  · -- out = mid ++ [[]]
    have hf : (mid ++ [[]]).filter (fun t => !t.isEmpty) = mid.filter (fun t => !t.isEmpty) := by
      simp
    rw [hf, filter_nonempty_eq_self mid hmid]
    cases mid with
    | nil => rfl
    | cons u ts =>
      rw [joinSp_append_empty (u :: ts) (by simp)]
      have hJne : joinSp (u :: ts) ≠ [] :=
        joinSp_ne_nil (u :: ts) (by simp) (fun t ht => hmid t ht)
      have hch : List.Chain' (fun a b => isWsChar a = false ∨ isWsChar b = false)
          (joinSp (u :: ts) ++ [' ']) := by
        rw [List.chain'_append]
        refine ⟨joinSp_chain' (u :: ts) hmidfull, by simp, ?_⟩
        intro x hx y _
        exact Or.inl (joinSp_last_nonws (u :: ts) hmidfull x (Option.mem_def.mp hx))
      rw [collapseWs_noop _ hch]
      exact trimWs_append_space _ hJne (joinSp_head_nonws (u :: ts) hmidfull)
        (joinSp_last_nonws (u :: ts) hmidfull)
  · -- out = [] :: (mid ++ [[]])
    have hf : ([] :: (mid ++ [[]])).filter (fun t => !t.isEmpty) =
        mid.filter (fun t => !t.isEmpty) := by
      simp
    rw [hf, filter_nonempty_eq_self mid hmid]
    cases mid with
    | nil => rfl
    | cons u ts =>
      have hJne : joinSp (u :: ts) ≠ [] :=
        joinSp_ne_nil (u :: ts) (by simp) (fun t ht => hmid t ht)
      have hjoin : joinSp ([] :: ((u :: ts) ++ [[]])) =
          ' ' :: (joinSp (u :: ts) ++ [' ']) := by
        have h1 : joinSp ([] :: ((u :: ts) ++ [[]])) =
            [] ++ ' ' :: joinSp ((u :: ts) ++ [[]]) := by
          rw [show (u :: ts) ++ [[]] = u :: (ts ++ [[]]) by simp]
          exact joinSp_cons_cons [] u (ts ++ [[]])
        rw [h1, joinSp_append_empty (u :: ts) (by simp)]
        rfl
      rw [hjoin]
      have htail : List.Chain' (fun a b => isWsChar a = false ∨ isWsChar b = false)
          (joinSp (u :: ts) ++ [' ']) := by
        rw [List.chain'_append]
        refine ⟨joinSp_chain' (u :: ts) hmidfull, by simp, ?_⟩
        intro x hx y _
        exact Or.inl (joinSp_last_nonws (u :: ts) hmidfull x (Option.mem_def.mp hx))
      have hch : List.Chain' (fun a b => isWsChar a = false ∨ isWsChar b = false)
          (' ' :: (joinSp (u :: ts) ++ [' '])) := by
        rw [List.chain'_cons']
        refine ⟨?_, htail⟩
        intro y hy
        obtain ⟨b, rb, hb⟩ : ∃ b rb, joinSp (u :: ts) = b :: rb := by
          cases hj : joinSp (u :: ts) with
          | nil => exact absurd hj hJne
          | cons b rb => exact ⟨b, rb, rfl⟩
        rw [hb] at hy
        simp only [List.cons_append, List.head?_cons, Option.mem_def,
          Option.some.injEq] at hy
        subst hy
        exact Or.inr (joinSp_head_nonws (u :: ts) hmidfull _ (by rw [hb]; rfl))
      rw [collapseWs_noop _ hch]
      rw [trimWs_cons_space]
      exact trimWs_append_space _ hJne (joinSp_head_nonws (u :: ts) hmidfull)
        (joinSp_last_nonws (u :: ts) hmidfull)

theorem dedupe_output_form (s : String) (hne : s ≠ "") :
    ∃ os : List (List Char),
      (∀ t ∈ os, t ≠ [] ∧ ∀ c ∈ t, isWsChar c = false) ∧
      List.Pairwise (fun a b => wordKey a ≠ [] → wordKey b ≠ [] → wordKey a ≠ wordKey b) os ∧
      (dedupeTitleWords s).data = joinSp os := by
  have hout_sub : (keepLoop [] (wsSplit s.data)).Sublist (wsSplit s.data) :=
    keepLoop_sublist [] (wsSplit s.data)
  have hout_ws : ∀ t ∈ keepLoop [] (wsSplit s.data), ∀ c ∈ t, isWsChar c = false :=
    fun t ht => wsSplit_wsFree s.data t (hout_sub.subset ht)
  have hout_shape : ∃ mid, (∀ t ∈ mid, t ≠ []) ∧
      (keepLoop [] (wsSplit s.data) = mid ∨
       keepLoop [] (wsSplit s.data) = [] :: mid ∨
       keepLoop [] (wsSplit s.data) = mid ++ [[]] ∨
       keepLoop [] (wsSplit s.data) = [] :: (mid ++ [[]])) := by
    obtain ⟨mid, hmid, hcase⟩ := wsSplit_shape s.data
    have hsubmid : ∀ t ∈ keepLoop [] mid, t ≠ [] :=
      fun t ht => hmid t ((keepLoop_sublist [] mid).subset ht)
    rcases hcase with h | h | h | h
    · exact ⟨keepLoop [] mid, hsubmid, Or.inl (by rw [h])⟩
    · exact ⟨keepLoop [] mid, hsubmid, Or.inr (Or.inl (by rw [h, keepLoop_cons_empty]))⟩
    · exact ⟨keepLoop [] mid, hsubmid, Or.inr (Or.inr (Or.inl (by
        rw [h, keepLoop_append_empty])))⟩
    · exact ⟨keepLoop [] mid, hsubmid, Or.inr (Or.inr (Or.inr (by
        rw [h, keepLoop_cons_empty, keepLoop_append_empty])))⟩
  refine ⟨(keepLoop [] (wsSplit s.data)).filter (fun t => !t.isEmpty), ?_, ?_, ?_⟩
  · intro t ht
    have hmem := (List.filter_sublist (keepLoop [] (wsSplit s.data))).subset ht
    refine ⟨?_, hout_ws t hmem⟩
    have := List.of_mem_filter ht
    intro hnil
    rw [hnil] at this
    simp at this
  · exact (keepLoop_pairwiseKeys [] (wsSplit s.data)).sublist
      (List.filter_sublist _)
  · show (dedupeTitleWords s).data = _
    unfold dedupeTitleWords
    rw [if_neg hne]
    exact trimCollapseJoin _ hout_shape hout_ws

theorem dedupe_fixed_point (os : List (List Char))
    (hall : ∀ t ∈ os, t ≠ [] ∧ ∀ c ∈ t, isWsChar c = false)
    (hpw : List.Pairwise
      (fun a b => wordKey a ≠ [] → wordKey b ≠ [] → wordKey a ≠ wordKey b) os) :
    dedupeTitleWords (String.mk (joinSp os)) = String.mk (joinSp os) := by
  by_cases hos : os = []
  · subst hos
    rfl
  · have hjx : String.mk (joinSp os) ≠ "" := by
      intro hx
      have hdata : joinSp os = [] := congrArg String.data hx
      exact joinSp_ne_nil os hos (fun t ht => (hall t ht).1) hdata
    unfold dedupeTitleWords
    rw [if_neg hjx]
    rw [show (String.mk (joinSp os)).data = joinSp os from rfl]
    rw [wsSplit_joinSp os hos hall]
    rw [keepLoop_id [] os (by simp) hpw]
    rw [collapseWs_noop _ (joinSp_chain' os hall)]
    rw [trimWs_noop _ (joinSp_head_nonws os hall) (joinSp_last_nonws os hall)]

/-- C9: word-level title deduplication is idempotent — applying
`dedupeTitleWords` to its own output changes nothing. -/
theorem dedupeTitleWords_idem (s : String) :
    dedupeTitleWords (dedupeTitleWords s) = dedupeTitleWords s := by
  by_cases hs : s = ""
  · subst hs
    rfl
  · obtain ⟨os, hall, hpw, hdata⟩ := dedupe_output_form s hs
    have hy : dedupeTitleWords s = String.mk (joinSp os) := by
      calc dedupeTitleWords s = String.mk (dedupeTitleWords s).data := rfl
        _ = String.mk (joinSp os) := by rw [hdata]
    rw [hy]
    exact dedupe_fixed_point os hall hpw
